import Mathlib

/-!
A shallow embedding of the fact-generation front end of the
polonius.next borrow-checker prototype (`src/fact_emitter.rs`),
together with the AST it consumes, and theorems about the emitter.
-/

namespace PoloniusNext

/-- Modelled from the spec: names are interned strings compared by string
equality (the `ast` module of the repository is not under `src`; its shape
is taken from section 3 of the specification and from the parser test
snapshots in `src/ast_parser/test.rs`). -/
abbrev Name := String

/-- An origin name, wrapping a string (the `Origin` newtype). -/
abbrev Origin := String

/-- A CFG node label, wrapping a string (the `Node` newtype). -/
abbrev Node := String

mutual

/-- Modelled from the spec: the type language `Ty` of section 3, matching
the debug snapshots of `src/ast_parser/test.rs`. -/
inductive Ty where
  | i32 : Ty
  | unit : Ty
  | ref (origin : Name) (ty : Ty) : Ty
  | refMut (origin : Name) (ty : Ty) : Ty
  | struct (name : Name) (parameters : List Parameter) : Ty

/-- Modelled from the spec: a generic argument, either an origin or a type. -/
inductive Parameter where
  | origin (name : Name) : Parameter
  | ty (t : Ty) : Parameter

end

/-- Modelled from the spec: the four access kinds of an `Access` expression. -/
inductive AccessKind where
  | borrow (origin : Name) : AccessKind
  | borrowMut (origin : Name) : AccessKind
  | copy : AccessKind
  | move : AccessKind
  deriving DecidableEq

/-- Modelled from the spec: a place, a base variable name (possibly with a
leading star for a dereference) followed by a field path. -/
structure Place where
  base : Name
  fields : List Name
  deriving DecidableEq

/-- Modelled from the spec: expressions of the surface language. -/
inductive Expr where
  | number (value : Int) : Expr
  | access (kind : AccessKind) (place : Place) : Expr
  | call (callee : Name) (arguments : List Expr) : Expr

/-- Modelled from the spec: a statement, either an assignment or a bare
expression. -/
inductive Statement where
  | assign (place : Place) (expr : Expr) : Statement
  | expr (e : Expr) : Statement

/-- Modelled from the spec: every statement carries a source-text span; the
emitter only uses the span to slice the input into the statement text, so the
embedding carries that text directly. -/
structure SpannedStatement where
  text : String
  stmt : Statement

/-- Modelled from the spec: a generic declaration of a struct, either an
origin name or a type name. -/
inductive GenericDecl where
  | origin (name : Name) : GenericDecl
  | ty (name : Name) : GenericDecl

/-- Modelled from the spec: a variable (or field) declaration. -/
structure VariableDecl where
  name : Name
  ty : Ty

/-- Modelled from the spec: a struct declaration. -/
structure StructDecl where
  name : Name
  generic_decls : List GenericDecl
  field_decls : List VariableDecl

/-- Modelled from the spec: a basic block with a label, statements and the
declared successor labels. -/
structure BasicBlock where
  name : Name
  statements : List SpannedStatement
  successors : List Name

/-- Modelled from the spec: a function prototype (never read by the emitter). -/
structure FnPrototype where
  name : Name
  generic_decls : List GenericDecl
  arg_tys : List Ty
  ret_ty : Ty

/-- Modelled from the spec: a whole program; `variable_decls` is the
`variables` field of the Rust `Program` (renamed because `variables` is a
reserved word here). -/
structure Program where
  struct_decls : List StructDecl
  fn_prototypes : List FnPrototype
  variable_decls : List VariableDecl
  basic_blocks : List BasicBlock

/-- The internal CFG location of `fact_emitter.rs`: block index and
statement index. -/
structure Location where
  block_idx : Nat
  statement_idx : Nat
  deriving DecidableEq

/-- The `Facts` accumulator: six append-only relations. -/
structure Facts where
  access_origin : List (Origin × Node)
  cfg_edge : List (Node × Node)
  clear_origin : List (Origin × Node)
  introduce_subset : List (Origin × Origin × Node)
  invalidate_origin : List (Origin × Node)
  node_text : List (String × Node)
  deriving DecidableEq

/-- The default (empty) `Facts` accumulator. -/
def Facts.empty : Facts := ⟨[], [], [], [], [], []⟩

def Facts.pushAccess (f : Facts) (x : Origin × Node) : Facts :=
  { f with access_origin := f.access_origin ++ [x] }

def Facts.pushEdge (f : Facts) (x : Node × Node) : Facts :=
  { f with cfg_edge := f.cfg_edge ++ [x] }

def Facts.pushClear (f : Facts) (x : Origin × Node) : Facts :=
  { f with clear_origin := f.clear_origin ++ [x] }

def Facts.pushSubset (f : Facts) (x : Origin × Origin × Node) : Facts :=
  { f with introduce_subset := f.introduce_subset ++ [x] }

def Facts.pushInvalidate (f : Facts) (x : Origin × Node) : Facts :=
  { f with invalidate_origin := f.invalidate_origin ++ [x] }

def Facts.pushNodeText (f : Facts) (x : String × Node) : Facts :=
  { f with node_text := f.node_text ++ [x] }

/-- The irrefutable let `(Statement::Assign(_, expr) | Statement::Expr(expr))`
used when building the loan index. -/
def Statement.exprOf : Statement → Expr
  | .assign _ e => e
  | .expr e => e

/-- The loan entries contributed to the index entry of `place` by the given
statement list, starting at the given statement index of block `block_idx`
(the inner loop of `FactEmitter::new`). -/
def loansInStatements (place : Place) (block_idx : Nat) :
    Nat → List SpannedStatement → List (Origin × Location)
  | _, [] => []
  | statement_idx, s :: rest =>
    (match s.stmt.exprOf with
     | .access (.borrow origin) pl =>
        if pl = place then [(origin, ⟨block_idx, statement_idx⟩)] else []
     | .access (.borrowMut origin) pl =>
        if pl = place then [(origin, ⟨block_idx, statement_idx⟩)] else []
     | _ => []) ++ loansInStatements place block_idx (statement_idx + 1) rest

/-- The loan entries contributed to the index entry of `place` by the given
block list, starting at the given block index (the outer loop of
`FactEmitter::new`). -/
def loansInBlocks (place : Place) : Nat → List BasicBlock → List (Origin × Location)
  | _, [] => []
  | block_idx, bb :: rest =>
    loansInStatements place block_idx 0 bb.statements ++
      loansInBlocks place (block_idx + 1) rest

/-- The loan index built by `FactEmitter::new`, seen as the per-place query
it supports: the ordered list of `(origin, location)` pairs pushed for a
given place (a `HashMap` entry preserves push order; an absent key behaves
as the empty list). -/
def loansOf (program : Program) (place : Place) : List (Origin × Location) :=
  loansInBlocks place 0 program.basic_blocks

/-- The `FactEmitter` struct. The `input` text is not carried: statements
carry their own text in this embedding. -/
structure FactEmitter where
  program : Program
  loans : Place → List (Origin × Location)
  simple_node_names : Bool

/-- `FactEmitter::new`: store the program and build the loan index. The
`SIMPLE_NODES` environment variable override is modelled as always unset, so
only the `simple_node_names` flag selects the naming scheme. -/
def FactEmitter.new (program : Program) (simple_node_names : Bool) : FactEmitter :=
  ⟨program, loansOf program, simple_node_names⟩

/-- The default node label `block[idx]` built by `FactEmitter::node_at`. -/
def defaultLabel (block : Name) (statement_idx : Nat) : Node :=
  block ++ "[" ++ toString statement_idx ++ "]"

/-- The number of node slots a block occupies: counted as if there is always
at least one statement per block, to account for empty blocks with a goto. -/
def slotCount (bb : BasicBlock) : Nat :=
  max bb.statements.length 1

/-- The linearised statement start index of a block in simple naming mode
(`bb_statement_start_idx` in `FactEmitter::node_at`). -/
def blockSlotStart (bbs : List BasicBlock) (block : Name) : Nat :=
  (bbs.takeWhile (fun bb => block ≠ bb.name)).foldl
    (fun acc bb => acc + max bb.statements.length 1) 0

/-- The single-letter node label of simple naming mode; 97 is the scalar
value of the letter a. -/
def simpleLabel (bbs : List BasicBlock) (block : Name) (statement_idx : Nat) : Node :=
  String.mk [Char.ofNat (97 + blockSlotStart bbs block + statement_idx)]

/-- `FactEmitter::node_at`: the default label is `block[idx]`; in simple
mode the statement index is linearised across blocks (counting an empty
block as one slot) and turned into a single character, failing as
`char::from_u32` does when the code is not a unicode scalar value. -/
def FactEmitter.nodeAt (e : FactEmitter) (block : Name) (statement_idx : Nat) :
    Except String Node :=
  if e.simple_node_names then
    let node_idx := 97 + blockSlotStart e.program.basic_blocks block + statement_idx
    if node_idx < 0xd800 ∨ (0xe000 ≤ node_idx ∧ node_idx < 0x110000) then
      .ok (String.mk [Char.ofNat node_idx])
    else
      .error "could not turn the index into a single letter node name"
  else
    .ok (defaultLabel block statement_idx)

/-- `Place::deref_base`: the base name without the leading star, when there
is one (42 is the scalar value of the star character). -/
def Place.derefBase (p : Place) : Option Name :=
  match p.base.data with
  | c :: rest => if c = Char.ofNat 42 then some (String.mk rest) else none
  | [] => none

/-- One step of the field fold in `FactEmitter::walk_place_tys`: resolve
`field_name` inside the parent type `ty`, substituting a generic type
parameter when the declared field type names one. The method takes `&self`
but only reads `self.program`, which is passed directly here. -/
def walkStep (program : Program) (ty : Ty) (field_name : Name) :
    Except String Ty :=
  match ty with
  | .struct struct_name struct_substs =>
    match program.struct_decls.find? (fun s => s.name = struct_name) with
    | none => .error "cannot find struct"
    | some decl =>
      match decl.field_decls.find? (fun v => v.name = field_name) with
      | none => .error "cannot find field in struct"
      | some field =>
        match field.ty with
        | .struct field_ty_name field_ty_params =>
          match decl.generic_decls.findIdx?
              (fun d => match d with
                | .ty param_ty_name => param_ty_name = field_ty_name
                | _ => false) with
          | some idx =>
            match struct_substs.get? idx with
            | some (.ty subst_ty) => .ok subst_ty
            | some _ => .error "the parameter at idx should be a Ty"
            | none => .error "parameter index out of bounds"
          | none => .ok (.struct field_ty_name field_ty_params)
        | _ => .ok field.ty
  | _ => .error "ty must be a struct to access its fields"

/-- The field fold of `FactEmitter::walk_place_tys`: accumulates the types on
which the visitor callback fires (each parent type, in order) and returns the
final field type. -/
def walkFields (program : Program) :
    Ty → List Name → List Ty → Except String (List Ty × Ty)
  | ty, [], visited => .ok (visited, ty)
  | ty, field_name :: rest, visited => do
      let next ← walkStep program ty field_name
      walkFields program next rest (visited ++ [ty])

/-- `FactEmitter::walk_place_tys`: returns the list of types the visitor
callback is invoked on (in invocation order, the final type included) and
the resulting type of the place. -/
def walkPlaceTys (program : Program) (place : Place) :
    Except String (List Ty × Ty) :=
  let base := match place.derefBase with
    | some deref_base => deref_base
    | none => place.base
  match program.variable_decls.find? (fun v => v.name = base) with
  | none => .error "cannot find variable"
  | some v =>
    if place.fields.isEmpty then
      .ok ([v.ty], v.ty)
    else
      match v.ty with
      | .struct struct_name struct_params =>
        match walkFields program (.struct struct_name struct_params) place.fields [] with
        | .ok (visited, ty) => .ok (visited ++ [ty], ty)
        | .error msg => .error msg
      | _ => .error "variable ty must be a struct"

/-- `FactEmitter::ty_of_place`: the walk with a no-op visitor. -/
def tyOfPlace (program : Program) (place : Place) : Except String Ty :=
  (walkPlaceTys program place).map (fun r => r.2)

mutual

/-- What `Ty::visit_origins` feeds to a never-breaking collector visitor:
each `Ref`/`RefMut` origin before its referent, and struct parameters via
`Parameter.collectOriginsList`. -/
def Ty.collectOrigins : Ty → List Origin
  | .i32 => []
  | .unit => []
  | .ref origin ty => origin :: ty.collectOrigins
  | .refMut origin ty => origin :: ty.collectOrigins
  | .struct _ parameters => Parameter.collectOriginsList parameters
termination_by structural t => t

/-- The struct-parameter loop of `Ty::visit_origins`: origin parameters are
visited in order, but the visit returns as soon as the first `Parameter::Ty`
child has been visited recursively, skipping the remaining parameters. -/
def Parameter.collectOriginsList : List Parameter → List Origin
  | [] => []
  | .origin o :: rest => o :: Parameter.collectOriginsList rest
  | .ty t :: _ => t.collectOrigins
termination_by structural l => l

end

mutual

/-- `Ty::has_origins`: `visit_origins` with a visitor breaking at the first
origin. -/
def Ty.hasOrigins : Ty → Bool
  | .i32 => false
  | .unit => false
  | .ref _ _ => true
  | .refMut _ _ => true
  | .struct _ parameters => Parameter.hasOriginsList parameters
termination_by structural t => t

/-- The struct-parameter loop of `Ty::visit_origins` under the breaking
visitor of `Ty::has_origins`. -/
def Parameter.hasOriginsList : List Parameter → Bool
  | [] => false
  | .origin _ :: _ => true
  | .ty t :: _ => t.hasOrigins
termination_by structural l => l

end

/-- `FactEmitter::origins_of_place`: the origins collected by the walk
visitor, across every visited type in order. -/
def originsOfPlace (program : Program) (place : Place) :
    Except String (List Origin) :=
  (walkPlaceTys program place).map (fun r => (r.1.map Ty.collectOrigins).flatten)

/-- `Ty::is_ref`. -/
def Ty.isRef : Ty → Bool
  | .ref _ _ => true
  | .refMut _ _ => true
  | _ => false

/-- The `Variance` enum. -/
inductive Variance where
  | covariant : Variance
  | contravariant : Variance
  | invariant : Variance
  deriving DecidableEq

mutual

/-- `FactEmitter::relate_tys`: emit subset relationships between the two
types, pairing struct parameters positionally; any other combination emits
nothing. -/
def relateTys (node : Node) (lhs_ty rhs_ty : Ty) (variance : Variance)
    (facts : Facts) : Except String Facts :=
  match lhs_ty, rhs_ty with
  | .struct _ lhs_args, .struct _ rhs_args =>
      relateParams node lhs_args rhs_args variance facts
  | _, _ => .ok facts
termination_by structural lhs_ty

/-- The body of the pair-wise parameter loop of `FactEmitter::relate_tys`:
a pair of same-shaped reference parameters emits subsets according to the
variance and recurses (invariantly below a unique reference); any other
pair of type parameters recurses with unchanged variance; a remaining pair
hits the `todo` panic. -/
def relateParamPair (node : Node) (lhs_arg rhs_arg : Parameter)
    (variance : Variance) (facts : Facts) : Except String Facts :=
  match lhs_arg, rhs_arg with
  | .ty (Ty.ref target_origin lhs_ty), .ty (Ty.ref source_origin rhs_ty) => do
      let facts := if variance = .covariant ∨ variance = .invariant then
          facts.pushSubset (source_origin, target_origin, node) else facts
      let facts := if variance = .contravariant ∨ variance = .invariant then
          facts.pushSubset (target_origin, source_origin, node) else facts
      relateTys node lhs_ty rhs_ty variance facts
  | .ty (Ty.refMut target_origin lhs_ty), .ty (Ty.refMut source_origin rhs_ty) => do
      let facts := if variance = .covariant ∨ variance = .invariant then
          facts.pushSubset (source_origin, target_origin, node) else facts
      let facts := if variance = .contravariant ∨ variance = .invariant then
          facts.pushSubset (target_origin, source_origin, node) else facts
      relateTys node lhs_ty rhs_ty .invariant facts
  | .ty lhs_ty, .ty rhs_ty => relateTys node lhs_ty rhs_ty variance facts
  | _, _ => .error "todo: unsupported parameter pair"
termination_by structural lhs_arg

/-- The pair-wise parameter loop of `FactEmitter::relate_tys`; the `zip`
stops at the shorter list. -/
def relateParams (node : Node) (lhs_args rhs_args : List Parameter)
    (variance : Variance) (facts : Facts) : Except String Facts :=
  match lhs_args, rhs_args with
  | lhs_arg :: lhs_rest, rhs_arg :: rhs_rest => do
      let facts ← relateParamPair node lhs_arg rhs_arg variance facts
      relateParams node lhs_rest rhs_rest variance facts
  | _, _ => .ok facts
termination_by structural lhs_args

end

mutual

/-- `FactEmitter::emit_expr_facts`; the method only reads `self.program`
(through the place walks) and `self.loans`, passed directly here. -/
def emitExprFacts (program : Program) (loans : Place → List (Origin × Location))
    (node : Node) (expr : Expr) (facts : Facts) : Except String Facts :=
  match expr with
  | .access kind place =>
    match kind with
    | .borrow origin => .ok (facts.pushClear (origin, node))
    | .borrowMut origin => do
        let facts := facts.pushClear (origin, node)
        let origins ← originsOfPlace program place
        let facts := origins.foldl (fun f o => f.pushAccess (o, node)) facts
        let facts := (loans place).foldl
          (fun f ol => f.pushInvalidate (ol.1, node)) facts
        .ok facts
    | .copy => do
        let origins ← originsOfPlace program place
        .ok (origins.foldl (fun f o => f.pushAccess (o, node)) facts)
    | .move => do
        let origins ← originsOfPlace program place
        .ok (origins.foldl (fun f o => f.pushAccess (o, node)) facts)
  | .call _ arguments => emitExprListFacts program loans node arguments facts
  | .number _ => .ok facts
termination_by structural expr

/-- The argument loop of the `Expr::Call` case of
`FactEmitter::emit_expr_facts`. -/
def emitExprListFacts (program : Program) (loans : Place → List (Origin × Location))
    (node : Node) (exprs : List Expr) (facts : Facts) : Except String Facts :=
  match exprs with
  | [] => .ok facts
  | a :: rest => do
      let facts ← emitExprFacts program loans node a facts
      emitExprListFacts program loans node rest facts
termination_by structural exprs

end

/-- `FactEmitter::assert_no_origins_are_present`: the sanity check of the
fallthrough branch of subset emission. -/
def assertNoOriginsArePresent (program : Program) (lhs_ty : Ty)
    (rhs_expr : Expr) : Except String Unit :=
  if lhs_ty.hasOrigins then
    .error "LHS has unprocessed origins"
  else
    match rhs_expr with
    | .access kind place =>
      match kind with
      | .borrow _ => .error "RHS has unprocessed origins"
      | .borrowMut _ => .error "RHS has unprocessed origins"
      | .copy | .move => do
          let rhs_ty ← tyOfPlace program place
          if rhs_ty.hasOrigins then
            .error "RHS ty has unprocessed origins"
          else
            .ok ()
    | _ => .ok ()

/-- `FactEmitter::emit_subset_facts`: the variance table of assignments;
only `self.program` is read (through the place walks), passed directly. -/
def emitSubsetFacts (program : Program) (node : Node) (lhs_ty : Ty)
    (rhs_expr : Expr) (facts : Facts) : Except String Facts :=
  match lhs_ty, rhs_expr with
  | .ref target_origin lhs_inner, .access (.borrow source_origin) place => do
      let facts := facts.pushSubset (source_origin, target_origin, node)
      let rhs_ty ← tyOfPlace program place
      relateTys node lhs_inner rhs_ty .covariant facts
  | .ref target_origin lhs_inner, .access .copy place
  | .ref target_origin lhs_inner, .access .move place => do
      let rhs_ty ← tyOfPlace program place
      match rhs_ty with
      | .ref source_origin rhs_inner =>
          relateTys node lhs_inner rhs_inner .covariant
            (facts.pushSubset (source_origin, target_origin, node))
      | _ => .error "unreachable: cannot relate LHS shared ref and RHS"
  | .refMut target_origin lhs_inner, .access (.borrowMut source_origin) place => do
      let facts := facts.pushSubset (source_origin, target_origin, node)
      let rhs_ty ← tyOfPlace program place
      relateTys node lhs_inner rhs_ty .invariant facts
  | .refMut target_origin lhs_inner, .access .copy place
  | .refMut target_origin lhs_inner, .access .move place => do
      let rhs_ty ← tyOfPlace program place
      match rhs_ty with
      | .refMut source_origin rhs_inner =>
          relateTys node lhs_inner rhs_inner .invariant
            (facts.pushSubset (source_origin, target_origin, node))
      | _ => .error "unreachable: cannot relate LHS unique ref and RHS"
  | .struct struct_name struct_params, .access .copy place
  | .struct struct_name struct_params, .access .move place => do
      let rhs_ty ← tyOfPlace program place
      relateTys node (.struct struct_name struct_params) rhs_ty .covariant facts
  | _, .call _ _ => .ok facts
  | _, _ => do
      let _ ← assertNoOriginsArePresent program lhs_ty rhs_expr
      .ok facts

/-- The intra-block edge loop of `FactEmitter::emit_cfg_edges`, iterating
over the given statement indices. -/
def FactEmitter.emitEdgeIdxList (e : FactEmitter) (block : Name)
    (idxs : List Nat) (facts : Facts) : Except String Facts :=
  match idxs with
  | [] => .ok facts
  | idx :: rest => do
      let a ← e.nodeAt block (idx - 1)
      let b ← e.nodeAt block idx
      e.emitEdgeIdxList block rest (facts.pushEdge (a, b))

/-- The successor edge loop of `FactEmitter::emit_cfg_edges`. -/
def FactEmitter.emitSuccEdges (e : FactEmitter) (block : Name)
    (statement_count : Nat) (succs : List Name) (facts : Facts) :
    Except String Facts :=
  match succs with
  | [] => .ok facts
  | succ :: rest => do
      let a ← e.nodeAt block (statement_count - 1)
      let b ← e.nodeAt succ 0
      e.emitSuccEdges block statement_count rest (facts.pushEdge (a, b))

/-- `FactEmitter::emit_cfg_edges`: intra-block edges for indices in
`1..statement_count`, then one edge into each successor (`saturating_sub`
is the truncated subtraction of naturals). -/
def FactEmitter.emitCfgEdges (e : FactEmitter) (bb : BasicBlock)
    (facts : Facts) : Except String Facts := do
  let statement_count := bb.statements.length
  let facts ← e.emitEdgeIdxList bb.name (List.range' 1 (statement_count - 1)) facts
  e.emitSuccEdges bb.name statement_count bb.successors facts

/-- The per-statement body of the loop in `FactEmitter::emit_block_facts`,
once the node label has been computed. -/
def emitStatementFacts (program : Program)
    (loans : Place → List (Origin × Location)) (node : Node)
    (s : SpannedStatement) (facts : Facts) : Except String Facts :=
  let facts := facts.pushNodeText (s.text, node)
  match s.stmt with
  | .assign place expr => do
      let lhs_ty ← tyOfPlace program place
      let lhs_origins ← originsOfPlace program place
      let facts := lhs_origins.foldl (fun f o => f.pushClear (o, node)) facts
      let facts := if lhs_ty.isRef then facts
        else (loans place).foldl (fun f ol => f.pushInvalidate (ol.1, node)) facts
      let facts ← emitExprFacts program loans node expr facts
      emitSubsetFacts program node lhs_ty expr facts
  | .expr expr => emitExprFacts program loans node expr facts

/-- The statement loop of `FactEmitter::emit_block_facts`, starting at the
given statement index. -/
def FactEmitter.emitStatementsFrom (e : FactEmitter) (block : Name) (idx : Nat)
    (stmts : List SpannedStatement) (facts : Facts) : Except String Facts :=
  match stmts with
  | [] => .ok facts
  | s :: rest => do
      let node ← e.nodeAt block idx
      let facts ← emitStatementFacts e.program e.loans node s facts
      e.emitStatementsFrom block (idx + 1) rest facts

/-- `FactEmitter::emit_block_facts`. -/
def FactEmitter.emitBlockFacts (e : FactEmitter) (bb : BasicBlock)
    (facts : Facts) : Except String Facts := do
  let facts ← e.emitCfgEdges bb facts
  e.emitStatementsFrom bb.name 0 bb.statements facts

/-- The block loop of `FactEmitter::emit_facts`. -/
def FactEmitter.emitBlocksFacts (e : FactEmitter) (bbs : List BasicBlock)
    (facts : Facts) : Except String Facts :=
  match bbs with
  | [] => .ok facts
  | bb :: rest => do
      let facts ← e.emitBlockFacts bb facts
      e.emitBlocksFacts rest facts

/-- `FactEmitter::emit_facts`. -/
def FactEmitter.emitFacts (e : FactEmitter) (facts : Facts) :
    Except String Facts :=
  e.emitBlocksFacts e.program.basic_blocks facts

instance {ε α : Type} [DecidableEq ε] [DecidableEq α] : DecidableEq (Except ε α) :=
  fun a b =>
    match a, b with
    | .ok x, .ok y =>
      if h : x = y then isTrue (by rw [h])
      else isFalse (by intro c; cases c; exact h rfl)
    | .error x, .error y =>
      if h : x = y then isTrue (by rw [h])
      else isFalse (by intro c; cases c; exact h rfl)
    | .ok _, .error _ => isFalse (by intro c; cases c)
    | .error _, .ok _ => isFalse (by intro c; cases c)

/-- The facts emitted for a program starting from the empty accumulator
(defaulting to the empty accumulator when emission panics), used to state
concrete evaluations. -/
def emittedFactsD (p : Program) (simple : Bool) : Facts :=
  match (FactEmitter.new p simple).emitFacts Facts.empty with
  | .ok f => f
  | .error _ => Facts.empty

mutual

/-- The origins of the borrow subexpressions of an expression in evaluation
order: this is exactly the sequence of clear facts that
`FactEmitter::emit_expr_facts` pushes for the expression. -/
def Expr.borrowClears : Expr → List Origin
  | .access (.borrow o) _ => [o]
  | .access (.borrowMut o) _ => [o]
  | .access .copy _ => []
  | .access .move _ => []
  | .call _ arguments => Expr.borrowClearsList arguments
  | .number _ => []
termination_by structural e => e

/-- `Expr.borrowClears` over an argument list. -/
def Expr.borrowClearsList : List Expr → List Origin
  | [] => []
  | a :: rest => a.borrowClears ++ Expr.borrowClearsList rest
termination_by structural l => l

end

/-- Whether an LHS type / RHS expression pair is handled by one of the
non-fallthrough arms of the variance table in
`FactEmitter::emit_subset_facts`. -/
def subsetArmMatches (lhs_ty : Ty) (rhs_expr : Expr) : Bool :=
  match lhs_ty, rhs_expr with
  | .ref _ _, .access (.borrow _) _ => true
  | .ref _ _, .access .copy _ => true
  | .ref _ _, .access .move _ => true
  | .refMut _ _, .access (.borrowMut _) _ => true
  | .refMut _ _, .access .copy _ => true
  | .refMut _ _, .access .move _ => true
  | .struct _ _, .access .copy _ => true
  | .struct _ _, .access .move _ => true
  | _, .call _ _ => true
  | _, _ => false

/-- The origin name of an origin parameter, and nothing for a type
parameter. -/
def Parameter.originName? : Parameter → Option Name
  | .origin o => some o
  | .ty _ => none

/-- The total number of node slots of a block list (empty blocks counting
one). -/
def totalSlots (bbs : List BasicBlock) : Nat :=
  (bbs.map slotCount).sum

/-- The `(block name, statement index)` pairs from which node labels can be
minted during emission: indices below the slot count of each block. -/
def usedPairs (bbs : List BasicBlock) : List (Name × Nat) :=
  bbs.flatMap (fun bb => (List.range (slotCount bb)).map (fun i => (bb.name, i)))

/-- Apply a node-label renaming to every node occurrence in a fact record. -/
def mapFactsNodes (ren : Node → Node) (f : Facts) : Facts :=
  { access_origin := f.access_origin.map (fun x => (x.1, ren x.2))
    cfg_edge := f.cfg_edge.map (fun x => (ren x.1, ren x.2))
    clear_origin := f.clear_origin.map (fun x => (x.1, ren x.2))
    introduce_subset := f.introduce_subset.map (fun x => (x.1, x.2.1, ren x.2.2))
    invalidate_origin := f.invalidate_origin.map (fun x => (x.1, ren x.2))
    node_text := f.node_text.map (fun x => (x.1, ren x.2)) }

/-- The renaming from default node labels to simple node labels: a default
label of a used pair is sent to the corresponding single-letter label, and
any other string is left alone. -/
def nodeRenaming (bbs : List BasicBlock) (s : String) : String :=
  match (usedPairs bbs).find? (fun bi => defaultLabel bi.1 bi.2 == s) with
  | some bi => simpleLabel bbs bi.1 bi.2
  | none => s

/-- The append-only relation between fact accumulators: every relation of
the first is a prefix of the corresponding relation of the second. -/
def FactsExtends (f g : Facts) : Prop :=
  (∃ d, g.access_origin = f.access_origin ++ d) ∧
  (∃ d, g.cfg_edge = f.cfg_edge ++ d) ∧
  (∃ d, g.clear_origin = f.clear_origin ++ d) ∧
  (∃ d, g.introduce_subset = f.introduce_subset ++ d) ∧
  (∃ d, g.invalidate_origin = f.invalidate_origin ++ d) ∧
  (∃ d, g.node_text = f.node_text ++ d)

/-- Concrete program: `struct S { f: i32 } let a: S; let x: ref o_x i32;`
with block `bb0` holding `x = borrow o_L of a.f; a.f = 10;`. The borrow is
taken through a field path. -/
def progS : Program :=
  { struct_decls := [⟨"S", [], [⟨"f", .i32⟩]⟩]
    fn_prototypes := []
    variable_decls := [⟨"a", .struct "S" []⟩, ⟨"x", .ref "o_x" .i32⟩]
    basic_blocks := [⟨"bb0",
      [⟨"x = &L a.f", .assign ⟨"x", []⟩ (.access (.borrow "o_L") ⟨"a", ["f"]⟩)⟩,
       ⟨"a.f = 10", .assign ⟨"a", ["f"]⟩ (.number 10)⟩], []⟩] }

/-- Concrete program for scenario S4:
`struct Pair of origins o_a, o_b with fields x: ref o_a i32, y: ref o_b i32;
let p: Pair of o_a0, o_b0; let r: ref o_r i32;` and the single statement
`r = copy p.x`. -/
def progPair : Program :=
  { struct_decls := [⟨"Pair", [.origin "o_a", .origin "o_b"],
      [⟨"x", .ref "o_a" .i32⟩, ⟨"y", .ref "o_b" .i32⟩]⟩]
    fn_prototypes := []
    variable_decls := [⟨"p", .struct "Pair" [.origin "o_a0", .origin "o_b0"]⟩,
                       ⟨"r", .ref "o_r" .i32⟩]
    basic_blocks := [⟨"bb0",
      [⟨"r = copy p.x", .assign ⟨"r", []⟩ (.access .copy ⟨"p", ["x"]⟩)⟩], []⟩] }

/-- Concrete program: `let x: i32; let y: ref o_y i32;` with the single
statement `y = borrow o_L of x`. -/
def progBorrow : Program :=
  { struct_decls := []
    fn_prototypes := []
    variable_decls := [⟨"x", .i32⟩, ⟨"y", .ref "o_y" .i32⟩]
    basic_blocks := [⟨"bb0",
      [⟨"y = &L x", .assign ⟨"y", []⟩ (.access (.borrow "o_L") ⟨"x", []⟩)⟩], []⟩] }

/-- Concrete program for scenario S6: `struct T; let t: T;
let u: refMut o_u T;` with `u = borrowMut o_L of t; u = borrowMut o_M of t;`. -/
def progMutAlias : Program :=
  { struct_decls := [⟨"T", [], []⟩]
    fn_prototypes := []
    variable_decls := [⟨"t", .struct "T" []⟩, ⟨"u", .refMut "o_u" (.struct "T" [])⟩]
    basic_blocks := [⟨"bb0",
      [⟨"u = &L mut t", .assign ⟨"u", []⟩ (.access (.borrowMut "o_L") ⟨"t", []⟩)⟩,
       ⟨"u = &M mut t", .assign ⟨"u", []⟩ (.access (.borrowMut "o_M") ⟨"t", []⟩)⟩], []⟩] }

/-- Concrete three-block program with a two-statement block, an empty block
and a one-statement block, used to exercise CFG edges and node naming. -/
def progCfg : Program :=
  { struct_decls := []
    fn_prototypes := []
    variable_decls := [⟨"x", .i32⟩]
    basic_blocks :=
      [⟨"bb0", [⟨"x = 1", .assign ⟨"x", []⟩ (.number 1)⟩,
                ⟨"x = 2", .assign ⟨"x", []⟩ (.number 2)⟩], ["bb1", "bb2"]⟩,
       ⟨"bb1", [], ["bb2"]⟩,
       ⟨"bb2", [⟨"x = 3", .assign ⟨"x", []⟩ (.number 3)⟩], []⟩] }

/-! ## Basic lemmas about the embedding -/

theorem exceptBind_ok {α β : Type} (m : Except String α) (k : α → Except String β)
    (b : β) : m >>= k = .ok b ↔ ∃ a, m = .ok a ∧ k a = .ok b := by
  cases m <;> simp [Bind.bind, Except.bind]

/-! ## C1: the loan index and field-place borrows -/

theorem mem_loansInStatements (place : Place) (bidx : Nat) (origin : Name) :
    ∀ (stmts : List SpannedStatement) (start j : Nat) (s : SpannedStatement),
      stmts[j]? = some s →
      (s.stmt.exprOf = .access (.borrow origin) place ∨
       s.stmt.exprOf = .access (.borrowMut origin) place) →
      (origin, ⟨bidx, start + j⟩) ∈ loansInStatements place bidx start stmts := by
  intro stmts
  induction stmts with
  | nil => intro start j s h; simp at h
  | cons a rest ih =>
    intro start j s h hb
    cases j with
    | zero =>
      simp at h
      subst h
      rcases hb with hb | hb <;> simp [loansInStatements, hb]
    | succ j =>
      simp at h
      have hmem := ih (start + 1) j s h hb
      have heq : start + (j + 1) = start + 1 + j := by omega
      rw [heq]
      simp [loansInStatements]
      right
      exact hmem

theorem mem_loansInBlocks (place : Place) (x : Origin × Location) :
    ∀ (bbs : List BasicBlock) (start j : Nat) (bb : BasicBlock),
      bbs[j]? = some bb →
      x ∈ loansInStatements place (start + j) 0 bb.statements →
      x ∈ loansInBlocks place start bbs := by
  intro bbs
  induction bbs with
  | nil => intro start j bb h; simp at h
  | cons a rest ih =>
    intro start j bb h hmem
    cases j with
    | zero =>
      simp at h
      subst h
      simp [loansInBlocks]
      left
      simpa using hmem
    | succ j =>
      simp at h
      simp [loansInBlocks]
      right
      apply ih (start + 1) j bb h
      have heq : start + 1 + j = start + (j + 1) := by omega
      rw [heq]
      exact hmem

/-- C1: the claim is false on the code: the loan-index construction pass has
no emptiness filter on `place.fields`, so the borrow of the field place
`a.f` in `progS` is indexed, and the later assignment to `a.f` emits an
`invalidate_origin` fact for it. -/
theorem C1_counterexample :
    loansOf progS ⟨"a", ["f"]⟩ ≠ [] ∧
    ("o_L", "bb0[1]") ∈ (emittedFactsD progS false).invalidate_origin := by
  constructor
  · decide
  · decide

/-- C1 (amended): during the construction pass, a borrow expression
`Access(Borrow(o) or BorrowMut(o), place)` at block `block_idx`, statement
`statement_idx` adds `(o, (block_idx, statement_idx))` to the index entry of
`place` whether or not `place.fields` is empty; borrows through field paths
are indexed like complete places. -/
theorem C1_loan_index_records_every_borrow
    (program : Program) (block_idx statement_idx : Nat)
    (bb : BasicBlock) (s : SpannedStatement) (origin : Name) (place : Place)
    (h1 : program.basic_blocks[block_idx]? = some bb)
    (h2 : bb.statements[statement_idx]? = some s)
    (h3 : s.stmt.exprOf = .access (.borrow origin) place ∨
          s.stmt.exprOf = .access (.borrowMut origin) place) :
    (origin, ⟨block_idx, statement_idx⟩) ∈ loansOf program place := by
  have hs := mem_loansInStatements place block_idx origin bb.statements
    0 statement_idx s h2 h3
  apply mem_loansInBlocks place _ program.basic_blocks 0 block_idx bb
  · exact h1
  · simpa using hs

/-- C1 witness: the amended theorem applied to `progS`, where the borrow is
taken through the field path `a.f`. -/
theorem C1_witness :
    ("o_L", (⟨0, 0⟩ : Location)) ∈ loansOf progS ⟨"a", ["f"]⟩ :=
  C1_loan_index_records_every_borrow progS 0 0
    ⟨"bb0",
      [⟨"x = &L a.f", .assign ⟨"x", []⟩ (.access (.borrow "o_L") ⟨"a", ["f"]⟩)⟩,
       ⟨"a.f = 10", .assign ⟨"a", ["f"]⟩ (.number 10)⟩], []⟩
    ⟨"x = &L a.f", .assign ⟨"x", []⟩ (.access (.borrow "o_L") ⟨"a", ["f"]⟩)⟩
    "o_L" ⟨"a", ["f"]⟩ rfl rfl (Or.inl rfl)

/-! ## C2: scenario S4 -/

/-- C2: the claim is false on the code: at the assignment node of scenario
S4 the emitter does not produce the single `access_origin(o_a0)` and
`introduce_subset(o_a0, o_r)` facts the claim lists (it produces three
access facts and relates the unsubstituted field origin instead). -/
theorem C2_counterexample :
    ¬ ((emittedFactsD progPair false).clear_origin = [("o_r", "bb0[0]")] ∧
       (emittedFactsD progPair false).access_origin = [("o_a0", "bb0[0]")] ∧
       (emittedFactsD progPair false).introduce_subset = [("o_a0", "o_r", "bb0[0]")] ∧
       (emittedFactsD progPair false).invalidate_origin = []) := by
  decide

/-- C2 (amended): at the assignment node of scenario S4 the emitter produces
one `clear_origin(o_r)`, three `access_origin` facts for `o_a0`, `o_b0` and
the unsubstituted field origin `o_a` (in that order), one
`introduce_subset(o_a, o_r)` relating the unsubstituted field origin to
`o_r`, and no other access, clear, invalidate or subset facts. -/
theorem C2_scenario_s4 :
    (FactEmitter.new progPair false).emitFacts Facts.empty =
      .ok { access_origin := [("o_a0", "bb0[0]"), ("o_b0", "bb0[0]"), ("o_a", "bb0[0]")]
            cfg_edge := []
            clear_origin := [("o_r", "bb0[0]")]
            introduce_subset := [("o_a", "o_r", "bb0[0]")]
            invalidate_origin := []
            node_text := [("r = copy p.x", "bb0[0]")] } := by
  decide

/-! ## C3: clear-on-assign coverage -/

/-- C3: the claim is false on the code: at an assignment node whose RHS is a
borrow, the borrow re-issuance pushes an extra `clear_origin` fact beyond
the origins of the LHS place. -/
theorem C3_counterexample :
    originsOfPlace progBorrow ⟨"y", []⟩ = .ok ["o_y"] ∧
    (emittedFactsD progBorrow false).clear_origin ≠ [("o_y", "bb0[0]")] := by
  constructor
  · decide
  · decide

/-! ## C4: scenario S6 -/

/-- C4: the claim is false on the code: at the second assignment node of
scenario S6 the emitter invalidates every loan indexed for `t`, so an
`invalidate_origin(o_M)` fact appears next to `invalidate_origin(o_L)`. -/
theorem C4_counterexample :
    (emittedFactsD progMutAlias false).invalidate_origin.filter
        (fun x => x.2 == "bb0[1]") = [("o_L", "bb0[1]"), ("o_M", "bb0[1]")] ∧
    (emittedFactsD progMutAlias false).invalidate_origin.filter
        (fun x => x.2 == "bb0[1]") ≠ [("o_L", "bb0[1]")] := by
  constructor
  · decide
  · decide

/-- C4 (amended): at the second assignment node of scenario S6 the facts are
no `access_origin` (the plain struct `T` has no origins),
`invalidate_origin(o_L)` and also `invalidate_origin(o_M)` (the borrow
invalidates every indexed loan of `t`, its own included), `clear_origin(o_u)`
then `clear_origin(o_M)`, and `introduce_subset(o_M, o_u)`; the full run is
shown, the first node receiving the symmetric facts. -/
theorem C4_scenario_s6 :
    (FactEmitter.new progMutAlias false).emitFacts Facts.empty =
      .ok { access_origin := []
            cfg_edge := [("bb0[0]", "bb0[1]")]
            clear_origin := [("o_u", "bb0[0]"), ("o_L", "bb0[0]"),
                             ("o_u", "bb0[1]"), ("o_M", "bb0[1]")]
            introduce_subset := [("o_L", "o_u", "bb0[0]"), ("o_M", "o_u", "bb0[1]")]
            invalidate_origin := [("o_L", "bb0[0]"), ("o_M", "bb0[0]"),
                                  ("o_L", "bb0[1]"), ("o_M", "bb0[1]")]
            node_text := [("u = &L mut t", "bb0[0]"), ("u = &M mut t", "bb0[1]")] } := by
  decide

/-- Sequencing a unit-valued computation before returning a fixed record
returns that record. -/
theorem bindUnit_ok (m : Except String Unit) (f f2 : Facts)
    (h : (m >>= fun _ => (.ok f : Except String Facts)) = .ok f2) : f2 = f := by
  cases m with
  | ok a => simp [Bind.bind, Except.bind] at h; exact h.symm
  | error msg => simp [Bind.bind, Except.bind] at h

/-- The two conditional subset pushes of a reference parameter pair, as a
single record update. -/
theorem subset_step_update (c1 c2 : Prop) [Decidable c1] [Decidable c2]
    (f : Facts) (x1 x2 : Origin × Origin × Node) :
    (if c2 then (if c1 then f.pushSubset x1 else f).pushSubset x2
     else (if c1 then f.pushSubset x1 else f)) =
      { f with introduce_subset := f.introduce_subset ++
          ((if c1 then [x1] else []) ++ (if c2 then [x2] else [])) } := by
  by_cases h1 : c1 <;> by_cases h2 : c2 <;> simp [h1, h2, Facts.pushSubset]

mutual

/-- `relate_tys` only appends `introduce_subset` facts. -/
theorem relateTys_only_subsets (node : Node) (l r : Ty) (v : Variance)
    (f f2 : Facts) (h : relateTys node l r v f = .ok f2) :
    ∃ d, f2 = { f with introduce_subset := f.introduce_subset ++ d } := by
  cases l with
  | struct n ps =>
    cases r with
    | struct n2 ps2 =>
      exact relateParams_only_subsets node ps ps2 v f f2 (by simpa [relateTys] using h)
    | i32 => refine ⟨[], ?_⟩; simp [relateTys] at h; simp [← h]
    | unit => refine ⟨[], ?_⟩; simp [relateTys] at h; simp [← h]
    | ref o t => refine ⟨[], ?_⟩; simp [relateTys] at h; simp [← h]
    | refMut o t => refine ⟨[], ?_⟩; simp [relateTys] at h; simp [← h]
  | i32 => refine ⟨[], ?_⟩; simp [relateTys] at h; simp [← h]
  | unit => refine ⟨[], ?_⟩; simp [relateTys] at h; simp [← h]
  | ref o t => refine ⟨[], ?_⟩; simp [relateTys] at h; simp [← h]
  | refMut o t => refine ⟨[], ?_⟩; simp [relateTys] at h; simp [← h]
termination_by structural l

/-- A single parameter pair of `relate_tys` only appends `introduce_subset`
facts. -/
theorem relateParamPair_only_subsets (node : Node) (la ra : Parameter)
    (v : Variance) (f f2 : Facts) (h : relateParamPair node la ra v f = .ok f2) :
    ∃ d, f2 = { f with introduce_subset := f.introduce_subset ++ d } := by
  cases la with
  | origin o => simp [relateParamPair] at h
  | ty lt =>
    cases ra with
    | origin o2 =>
      cases lt <;> simp [relateParamPair] at h
    | ty rt =>
      cases lt with
      | ref tO lT =>
        cases rt with
        | ref sO rT =>
          simp only [relateParamPair] at h
          obtain ⟨d, hd⟩ := relateTys_only_subsets node lT rT v _ f2 h
          refine ⟨(if v = .covariant ∨ v = .invariant then [(sO, tO, node)] else []) ++
              ((if v = .contravariant ∨ v = .invariant then [(tO, sO, node)] else []) ++ d), ?_⟩
          rw [hd, subset_step_update]
          simp [List.append_assoc]
        | i32 => exact relateTys_only_subsets node _ _ v f f2 (by simpa [relateParamPair] using h)
        | unit => exact relateTys_only_subsets node _ _ v f f2 (by simpa [relateParamPair] using h)
        | refMut o2 t2 => exact relateTys_only_subsets node _ _ v f f2 (by simpa [relateParamPair] using h)
        | struct n2 ps2 => exact relateTys_only_subsets node _ _ v f f2 (by simpa [relateParamPair] using h)
      | refMut tO lT =>
        cases rt with
        | refMut sO rT =>
          simp only [relateParamPair] at h
          obtain ⟨d, hd⟩ := relateTys_only_subsets node lT rT .invariant _ f2 h
          refine ⟨(if v = .covariant ∨ v = .invariant then [(sO, tO, node)] else []) ++
              ((if v = .contravariant ∨ v = .invariant then [(tO, sO, node)] else []) ++ d), ?_⟩
          rw [hd, subset_step_update]
          simp [List.append_assoc]
        | i32 => exact relateTys_only_subsets node _ _ v f f2 (by simpa [relateParamPair] using h)
        | unit => exact relateTys_only_subsets node _ _ v f f2 (by simpa [relateParamPair] using h)
        | ref o2 t2 => exact relateTys_only_subsets node _ _ v f f2 (by simpa [relateParamPair] using h)
        | struct n2 ps2 => exact relateTys_only_subsets node _ _ v f f2 (by simpa [relateParamPair] using h)
      | i32 => exact relateTys_only_subsets node _ _ v f f2 (by simpa [relateParamPair] using h)
      | unit => exact relateTys_only_subsets node _ _ v f f2 (by simpa [relateParamPair] using h)
      | struct n1 ps1 => exact relateTys_only_subsets node _ _ v f f2 (by simpa [relateParamPair] using h)
termination_by structural la

/-- The parameter loop of `relate_tys` only appends `introduce_subset`
facts. -/
theorem relateParams_only_subsets (node : Node) (ls rs : List Parameter)
    (v : Variance) (f f2 : Facts) (h : relateParams node ls rs v f = .ok f2) :
    ∃ d, f2 = { f with introduce_subset := f.introduce_subset ++ d } := by
  cases ls with
  | nil => simp [relateParams] at h; refine ⟨[], ?_⟩; simp [← h]
  | cons la ls2 =>
    cases rs with
    | nil => simp [relateParams] at h; refine ⟨[], ?_⟩; simp [← h]
    | cons ra rs2 =>
      simp only [relateParams] at h
      rw [exceptBind_ok] at h
      obtain ⟨f1, h1, h2⟩ := h
      obtain ⟨d1, hd1⟩ := relateParamPair_only_subsets node la ra v f f1 h1
      obtain ⟨d2, hd2⟩ := relateParams_only_subsets node ls2 rs2 v f1 f2 h2
      refine ⟨d1 ++ d2, ?_⟩
      rw [hd2, hd1]
      simp [List.append_assoc]
termination_by structural ls

end

/-- `emit_subset_facts` only appends `introduce_subset` facts. -/
theorem emitSubsetFacts_only_subsets (program : Program) (node : Node)
    (lhs_ty : Ty) (rhs_expr : Expr) (f f2 : Facts)
    (h : emitSubsetFacts program node lhs_ty rhs_expr f = .ok f2) :
    ∃ d, f2 = { f with introduce_subset := f.introduce_subset ++ d } := by
  cases rhs_expr with
  | number v =>
    cases lhs_ty <;>
      (simp only [emitSubsetFacts] at h;
       refine ⟨[], ?_⟩; rw [bindUnit_ok _ _ _ h]; simp)
  | call c args =>
    cases lhs_ty <;>
      (simp only [emitSubsetFacts] at h; injection h with h2;
       refine ⟨[], ?_⟩; simp [← h2])
  | access kind place =>
    cases kind with
    | borrow sO =>
      cases lhs_ty with
      | ref tO lT =>
        simp only [emitSubsetFacts] at h
        rw [exceptBind_ok] at h
        obtain ⟨rt, h1, h2⟩ := h
        obtain ⟨d, hd⟩ := relateTys_only_subsets node lT rt .covariant _ f2 h2
        refine ⟨(sO, tO, node) :: d, ?_⟩
        rw [hd]
        simp [Facts.pushSubset]
      | i32 =>
        simp only [emitSubsetFacts] at h
        refine ⟨[], ?_⟩; rw [bindUnit_ok _ _ _ h]; simp
      | unit =>
        simp only [emitSubsetFacts] at h
        refine ⟨[], ?_⟩; rw [bindUnit_ok _ _ _ h]; simp
      | refMut o t =>
        simp only [emitSubsetFacts] at h
        refine ⟨[], ?_⟩; rw [bindUnit_ok _ _ _ h]; simp
      | struct n ps =>
        simp only [emitSubsetFacts] at h
        refine ⟨[], ?_⟩; rw [bindUnit_ok _ _ _ h]; simp
    | borrowMut sO =>
      cases lhs_ty with
      | refMut tO lT =>
        simp only [emitSubsetFacts] at h
        rw [exceptBind_ok] at h
        obtain ⟨rt, h1, h2⟩ := h
        obtain ⟨d, hd⟩ := relateTys_only_subsets node lT rt .invariant _ f2 h2
        refine ⟨(sO, tO, node) :: d, ?_⟩
        rw [hd]
        simp [Facts.pushSubset]
      | i32 =>
        simp only [emitSubsetFacts] at h
        refine ⟨[], ?_⟩; rw [bindUnit_ok _ _ _ h]; simp
      | unit =>
        simp only [emitSubsetFacts] at h
        refine ⟨[], ?_⟩; rw [bindUnit_ok _ _ _ h]; simp
      | ref o t =>
        simp only [emitSubsetFacts] at h
        refine ⟨[], ?_⟩; rw [bindUnit_ok _ _ _ h]; simp
      | struct n ps =>
        simp only [emitSubsetFacts] at h
        refine ⟨[], ?_⟩; rw [bindUnit_ok _ _ _ h]; simp
    | copy =>
      cases lhs_ty with
      | ref tO lT =>
        simp only [emitSubsetFacts] at h
        rw [exceptBind_ok] at h
        obtain ⟨rt, h1, h2⟩ := h
        cases rt with
        | ref sO rI =>
          obtain ⟨d, hd⟩ := relateTys_only_subsets node lT rI .covariant _ f2 h2
          refine ⟨(sO, tO, node) :: d, ?_⟩
          rw [hd]
          simp [Facts.pushSubset]
        | i32 => simp at h2
        | unit => simp at h2
        | refMut o t => simp at h2
        | struct n ps => simp at h2
      | refMut tO lT =>
        simp only [emitSubsetFacts] at h
        rw [exceptBind_ok] at h
        obtain ⟨rt, h1, h2⟩ := h
        cases rt with
        | refMut sO rI =>
          obtain ⟨d, hd⟩ := relateTys_only_subsets node lT rI .invariant _ f2 h2
          refine ⟨(sO, tO, node) :: d, ?_⟩
          rw [hd]
          simp [Facts.pushSubset]
        | i32 => simp at h2
        | unit => simp at h2
        | ref o t => simp at h2
        | struct n ps => simp at h2
      | struct n ps =>
        simp only [emitSubsetFacts] at h
        rw [exceptBind_ok] at h
        obtain ⟨rt, h1, h2⟩ := h
        exact relateTys_only_subsets node _ _ .covariant f f2 h2
      | i32 =>
        simp only [emitSubsetFacts] at h
        refine ⟨[], ?_⟩; rw [bindUnit_ok _ _ _ h]; simp
      | unit =>
        simp only [emitSubsetFacts] at h
        refine ⟨[], ?_⟩; rw [bindUnit_ok _ _ _ h]; simp
    | move =>
      cases lhs_ty with
      | ref tO lT =>
        simp only [emitSubsetFacts] at h
        rw [exceptBind_ok] at h
        obtain ⟨rt, h1, h2⟩ := h
        cases rt with
        | ref sO rI =>
          obtain ⟨d, hd⟩ := relateTys_only_subsets node lT rI .covariant _ f2 h2
          refine ⟨(sO, tO, node) :: d, ?_⟩
          rw [hd]
          simp [Facts.pushSubset]
        | i32 => simp at h2
        | unit => simp at h2
        | refMut o t => simp at h2
        | struct n ps => simp at h2
      | refMut tO lT =>
        simp only [emitSubsetFacts] at h
        rw [exceptBind_ok] at h
        obtain ⟨rt, h1, h2⟩ := h
        cases rt with
        | refMut sO rI =>
          obtain ⟨d, hd⟩ := relateTys_only_subsets node lT rI .invariant _ f2 h2
          refine ⟨(sO, tO, node) :: d, ?_⟩
          rw [hd]
          simp [Facts.pushSubset]
        | i32 => simp at h2
        | unit => simp at h2
        | ref o t => simp at h2
        | struct n ps => simp at h2
      | struct n ps =>
        simp only [emitSubsetFacts] at h
        rw [exceptBind_ok] at h
        obtain ⟨rt, h1, h2⟩ := h
        exact relateTys_only_subsets node _ _ .covariant f f2 h2
      | i32 =>
        simp only [emitSubsetFacts] at h
        refine ⟨[], ?_⟩; rw [bindUnit_ok _ _ _ h]; simp
      | unit =>
        simp only [emitSubsetFacts] at h
        refine ⟨[], ?_⟩; rw [bindUnit_ok _ _ _ h]; simp

/-! ## C3: the exact clear facts of an assignment -/

/-- Pushing access facts does not change the clear relation. -/
theorem foldl_pushAccess_clear (node : Node) (os : List Origin) :
    ∀ (f : Facts),
      (os.foldl (fun f o => f.pushAccess (o, node)) f).clear_origin =
        f.clear_origin := by
  induction os with
  | nil => intro f; rfl
  | cons o rest ih => intro f; rw [List.foldl_cons, ih]; rfl

/-- Pushing invalidation facts does not change the clear relation. -/
theorem foldl_pushInvalidate_clear (node : Node) (ls : List (Origin × Location)) :
    ∀ (f : Facts),
      (ls.foldl (fun f ol => f.pushInvalidate (ol.1, node)) f).clear_origin =
        f.clear_origin := by
  induction ls with
  | nil => intro f; rfl
  | cons ol rest ih => intro f; rw [List.foldl_cons, ih]; rfl

/-- The clear facts appended by the LHS origin loop of an assignment. -/
theorem foldl_pushClear_clear (node : Node) (os : List Origin) :
    ∀ (f : Facts),
      (os.foldl (fun f o => f.pushClear (o, node)) f).clear_origin =
        f.clear_origin ++ os.map (fun o => (o, node)) := by
  induction os with
  | nil => intro f; simp
  | cons o rest ih =>
    intro f
    rw [List.foldl_cons, ih]
    simp [Facts.pushClear, List.append_assoc]

mutual

/-- The clear facts appended by `emit_expr_facts` are exactly the borrow
origins of the expression, in evaluation order. -/
theorem emitExprFacts_clear (program : Program)
    (loans : Place → List (Origin × Location)) (node : Node) (expr : Expr)
    (f f2 : Facts) (h : emitExprFacts program loans node expr f = .ok f2) :
    f2.clear_origin = f.clear_origin ++
      (expr.borrowClears).map (fun o => (o, node)) := by
  cases expr with
  | number v =>
    simp only [emitExprFacts] at h
    injection h with h2
    simp [← h2, Expr.borrowClears]
  | access kind place =>
    cases kind with
    | borrow o =>
      simp only [emitExprFacts] at h
      injection h with h2
      simp [← h2, Facts.pushClear, Expr.borrowClears]
    | borrowMut o =>
      simp only [emitExprFacts] at h
      rw [exceptBind_ok] at h
      obtain ⟨os, hos, h2⟩ := h
      injection h2 with h2
      rw [← h2, foldl_pushInvalidate_clear, foldl_pushAccess_clear]
      simp [Facts.pushClear, Expr.borrowClears]
    | copy =>
      simp only [emitExprFacts] at h
      rw [exceptBind_ok] at h
      obtain ⟨os, hos, h2⟩ := h
      injection h2 with h2
      rw [← h2, foldl_pushAccess_clear]
      simp [Expr.borrowClears]
    | move =>
      simp only [emitExprFacts] at h
      rw [exceptBind_ok] at h
      obtain ⟨os, hos, h2⟩ := h
      injection h2 with h2
      rw [← h2, foldl_pushAccess_clear]
      simp [Expr.borrowClears]
  | call c args =>
    simp only [emitExprFacts] at h
    have hl := emitExprListFacts_clear program loans node args f f2 h
    simpa [Expr.borrowClears] using hl
termination_by structural expr

/-- The clear facts appended by the argument loop of a call. -/
theorem emitExprListFacts_clear (program : Program)
    (loans : Place → List (Origin × Location)) (node : Node)
    (exprs : List Expr) (f f2 : Facts)
    (h : emitExprListFacts program loans node exprs f = .ok f2) :
    f2.clear_origin = f.clear_origin ++
      (Expr.borrowClearsList exprs).map (fun o => (o, node)) := by
  cases exprs with
  | nil =>
    simp only [emitExprListFacts] at h
    injection h with h2
    simp [← h2, Expr.borrowClearsList]
  | cons a rest =>
    simp only [emitExprListFacts] at h
    rw [exceptBind_ok] at h
    obtain ⟨f1, h1, h2⟩ := h
    have ha := emitExprFacts_clear program loans node a f f1 h1
    have hr := emitExprListFacts_clear program loans node rest f1 f2 h2
    rw [hr, ha]
    simp [Expr.borrowClearsList, List.append_assoc]
termination_by structural exprs

end

/-- C3 (amended): at an `Assign(place, expr)` statement the clear facts
appended at the node are `origins_of(place)` in traversal order followed by
one clear fact per borrow subexpression of the RHS in evaluation order; they
equal `origins_of(place)` exactly when the RHS contains no borrow. -/
theorem C3_clear_on_assign (program : Program)
    (loans : Place → List (Origin × Location)) (node : Node) (text : String)
    (place : Place) (expr : Expr) (f f2 : Facts) (os : List Origin)
    (h1 : originsOfPlace program place = .ok os)
    (h2 : emitStatementFacts program loans node ⟨text, .assign place expr⟩ f = .ok f2) :
    f2.clear_origin = f.clear_origin ++ os.map (fun o => (o, node)) ++
      (expr.borrowClears).map (fun o => (o, node)) := by
  simp only [emitStatementFacts] at h2
  rw [exceptBind_ok] at h2
  obtain ⟨lt, hlt, h2⟩ := h2
  rw [exceptBind_ok] at h2
  obtain ⟨os2, hos2, h2⟩ := h2
  rw [h1] at hos2
  injection hos2 with hos2
  subst hos2
  rw [exceptBind_ok] at h2
  obtain ⟨f3, he, hs⟩ := h2
  obtain ⟨d, hd⟩ := emitSubsetFacts_only_subsets program node lt expr f3 f2 hs
  have hf3 := emitExprFacts_clear program loans node expr _ f3 he
  rw [hd]
  by_cases hr : lt.isRef = true <;>
    simp [hr, hf3, foldl_pushInvalidate_clear, foldl_pushClear_clear,
      Facts.pushNodeText, List.append_assoc]

/-- C3 witness: the amended clear characterization applied to the single
assignment of `progBorrow`, whose RHS is a borrow. -/
theorem C3_witness :
    ({ access_origin := []
       cfg_edge := []
       clear_origin := [("o_y", "bb0[0]"), ("o_L", "bb0[0]")]
       introduce_subset := [("o_L", "o_y", "bb0[0]")]
       invalidate_origin := []
       node_text := [("y = &L x", "bb0[0]")] } : Facts).clear_origin =
      Facts.empty.clear_origin ++ ["o_y"].map (fun o => (o, "bb0[0]")) ++
        ((Expr.access (.borrow "o_L") ⟨"x", []⟩).borrowClears).map
          (fun o => (o, "bb0[0]")) :=
  C3_clear_on_assign progBorrow (loansOf progBorrow) "bb0[0]" "y = &L x"
    ⟨"y", []⟩ (.access (.borrow "o_L") ⟨"x", []⟩) Facts.empty
    { access_origin := []
      cfg_edge := []
      clear_origin := [("o_y", "bb0[0]"), ("o_L", "bb0[0]")]
      introduce_subset := [("o_L", "o_y", "bb0[0]")]
      invalidate_origin := []
      node_text := [("y = &L x", "bb0[0]")] }
    ["o_y"] (by decide) (by decide)

/-! ## C9: the emitter only appends to the accumulator -/

theorem factsExtends_refl (f : Facts) : FactsExtends f f := by
  refine ⟨⟨[], ?_⟩, ⟨[], ?_⟩, ⟨[], ?_⟩, ⟨[], ?_⟩, ⟨[], ?_⟩, ⟨[], ?_⟩⟩ <;> simp

theorem factsExtends_trans {f g h : Facts} (h1 : FactsExtends f g)
    (h2 : FactsExtends g h) : FactsExtends f h := by
  obtain ⟨⟨a1, e1⟩, ⟨a2, e2⟩, ⟨a3, e3⟩, ⟨a4, e4⟩, ⟨a5, e5⟩, ⟨a6, e6⟩⟩ := h1
  obtain ⟨⟨b1, g1⟩, ⟨b2, g2⟩, ⟨b3, g3⟩, ⟨b4, g4⟩, ⟨b5, g5⟩, ⟨b6, g6⟩⟩ := h2
  exact ⟨⟨a1 ++ b1, by rw [g1, e1, List.append_assoc]⟩,
    ⟨a2 ++ b2, by rw [g2, e2, List.append_assoc]⟩,
    ⟨a3 ++ b3, by rw [g3, e3, List.append_assoc]⟩,
    ⟨a4 ++ b4, by rw [g4, e4, List.append_assoc]⟩,
    ⟨a5 ++ b5, by rw [g5, e5, List.append_assoc]⟩,
    ⟨a6 ++ b6, by rw [g6, e6, List.append_assoc]⟩⟩

theorem pushAccess_extends (f : Facts) (x : Origin × Node) :
    FactsExtends f (f.pushAccess x) := by
  refine ⟨⟨[x], rfl⟩, ⟨[], ?_⟩, ⟨[], ?_⟩, ⟨[], ?_⟩, ⟨[], ?_⟩, ⟨[], ?_⟩⟩ <;>
    simp [Facts.pushAccess]

theorem pushEdge_extends (f : Facts) (x : Node × Node) :
    FactsExtends f (f.pushEdge x) := by
  refine ⟨⟨[], ?_⟩, ⟨[x], rfl⟩, ⟨[], ?_⟩, ⟨[], ?_⟩, ⟨[], ?_⟩, ⟨[], ?_⟩⟩ <;>
    simp [Facts.pushEdge]

theorem pushClear_extends (f : Facts) (x : Origin × Node) :
    FactsExtends f (f.pushClear x) := by
  refine ⟨⟨[], ?_⟩, ⟨[], ?_⟩, ⟨[x], rfl⟩, ⟨[], ?_⟩, ⟨[], ?_⟩, ⟨[], ?_⟩⟩ <;>
    simp [Facts.pushClear]

theorem pushSubset_extends (f : Facts) (x : Origin × Origin × Node) :
    FactsExtends f (f.pushSubset x) := by
  refine ⟨⟨[], ?_⟩, ⟨[], ?_⟩, ⟨[], ?_⟩, ⟨[x], rfl⟩, ⟨[], ?_⟩, ⟨[], ?_⟩⟩ <;>
    simp [Facts.pushSubset]

theorem pushInvalidate_extends (f : Facts) (x : Origin × Node) :
    FactsExtends f (f.pushInvalidate x) := by
  refine ⟨⟨[], ?_⟩, ⟨[], ?_⟩, ⟨[], ?_⟩, ⟨[], ?_⟩, ⟨[x], rfl⟩, ⟨[], ?_⟩⟩ <;>
    simp [Facts.pushInvalidate]

theorem pushNodeText_extends (f : Facts) (x : String × Node) :
    FactsExtends f (f.pushNodeText x) := by
  refine ⟨⟨[], ?_⟩, ⟨[], ?_⟩, ⟨[], ?_⟩, ⟨[], ?_⟩, ⟨[], ?_⟩, ⟨[x], rfl⟩⟩ <;>
    simp [Facts.pushNodeText]

theorem foldl_extends {α : Type} (g : Facts → α → Facts)
    (hg : ∀ f a, FactsExtends f (g f a)) :
    ∀ (l : List α) (f : Facts), FactsExtends f (l.foldl g f) := by
  intro l
  induction l with
  | nil => intro f; exact factsExtends_refl f
  | cons a rest ih =>
    intro f
    exact factsExtends_trans (hg f a) (ih (g f a))

theorem subsets_update_extends (f : Facts) (d : List (Origin × Origin × Node)) :
    FactsExtends f { f with introduce_subset := f.introduce_subset ++ d } := by
  refine ⟨⟨[], ?_⟩, ⟨[], ?_⟩, ⟨[], ?_⟩, ⟨d, rfl⟩, ⟨[], ?_⟩, ⟨[], ?_⟩⟩ <;> simp

theorem relateTys_extends (node : Node) (l r : Ty) (v : Variance) (f f2 : Facts)
    (h : relateTys node l r v f = .ok f2) : FactsExtends f f2 := by
  obtain ⟨d, hd⟩ := relateTys_only_subsets node l r v f f2 h
  rw [hd]
  exact subsets_update_extends f d

theorem emitSubsetFacts_extends (program : Program) (node : Node) (lhs_ty : Ty)
    (rhs_expr : Expr) (f f2 : Facts)
    (h : emitSubsetFacts program node lhs_ty rhs_expr f = .ok f2) : FactsExtends f f2 := by
  obtain ⟨d, hd⟩ := emitSubsetFacts_only_subsets program node lhs_ty rhs_expr f f2 h
  rw [hd]
  exact subsets_update_extends f d

mutual

theorem emitExprFacts_extends (program : Program)
    (loans : Place → List (Origin × Location)) (node : Node) (expr : Expr)
    (f f2 : Facts) (h : emitExprFacts program loans node expr f = .ok f2) :
    FactsExtends f f2 := by
  cases expr with
  | number v =>
    simp only [emitExprFacts] at h
    injection h with h2
    rw [← h2]
    exact factsExtends_refl f
  | access kind place =>
    cases kind with
    | borrow o =>
      simp only [emitExprFacts] at h
      injection h with h2
      rw [← h2]
      exact pushClear_extends f (o, node)
    | borrowMut o =>
      simp only [emitExprFacts] at h
      rw [exceptBind_ok] at h
      obtain ⟨os, hos, h2⟩ := h
      injection h2 with h2
      rw [← h2]
      refine factsExtends_trans (pushClear_extends f (o, node)) ?_
      refine factsExtends_trans
        (foldl_extends _ (fun f o => pushAccess_extends f (o, node)) os _) ?_
      exact foldl_extends _ (fun f (ol : Origin × Location) => pushInvalidate_extends f (ol.1, node)) _ _
    | copy =>
      simp only [emitExprFacts] at h
      rw [exceptBind_ok] at h
      obtain ⟨os, hos, h2⟩ := h
      injection h2 with h2
      rw [← h2]
      exact foldl_extends _ (fun f o => pushAccess_extends f (o, node)) os f
    | move =>
      simp only [emitExprFacts] at h
      rw [exceptBind_ok] at h
      obtain ⟨os, hos, h2⟩ := h
      injection h2 with h2
      rw [← h2]
      exact foldl_extends _ (fun f o => pushAccess_extends f (o, node)) os f
  | call c args =>
    simp only [emitExprFacts] at h
    exact emitExprListFacts_extends program loans node args f f2 h
termination_by structural expr

theorem emitExprListFacts_extends (program : Program)
    (loans : Place → List (Origin × Location)) (node : Node)
    (exprs : List Expr) (f f2 : Facts)
    (h : emitExprListFacts program loans node exprs f = .ok f2) : FactsExtends f f2 := by
  cases exprs with
  | nil =>
    simp only [emitExprListFacts] at h
    injection h with h2
    rw [← h2]
    exact factsExtends_refl f
  | cons a rest =>
    simp only [emitExprListFacts] at h
    rw [exceptBind_ok] at h
    obtain ⟨f1, h1, h2⟩ := h
    exact factsExtends_trans (emitExprFacts_extends program loans node a f f1 h1)
      (emitExprListFacts_extends program loans node rest f1 f2 h2)
termination_by structural exprs

end

theorem emitEdgeIdxList_extends (e : FactEmitter) (block : Name) :
    ∀ (idxs : List Nat) (f f2 : Facts),
      e.emitEdgeIdxList block idxs f = .ok f2 → FactsExtends f f2 := by
  intro idxs
  induction idxs with
  | nil =>
    intro f f2 h
    simp only [FactEmitter.emitEdgeIdxList] at h
    injection h with h2
    rw [← h2]
    exact factsExtends_refl f
  | cons i rest ih =>
    intro f f2 h
    simp only [FactEmitter.emitEdgeIdxList] at h
    rw [exceptBind_ok] at h
    obtain ⟨a, ha, h⟩ := h
    rw [exceptBind_ok] at h
    obtain ⟨b, hb, h⟩ := h
    exact factsExtends_trans (pushEdge_extends f (a, b)) (ih _ _ h)

theorem emitSuccEdges_extends (e : FactEmitter) (block : Name) (n : Nat) :
    ∀ (succs : List Name) (f f2 : Facts),
      e.emitSuccEdges block n succs f = .ok f2 → FactsExtends f f2 := by
  intro succs
  induction succs with
  | nil =>
    intro f f2 h
    simp only [FactEmitter.emitSuccEdges] at h
    injection h with h2
    rw [← h2]
    exact factsExtends_refl f
  | cons s rest ih =>
    intro f f2 h
    simp only [FactEmitter.emitSuccEdges] at h
    rw [exceptBind_ok] at h
    obtain ⟨a, ha, h⟩ := h
    rw [exceptBind_ok] at h
    obtain ⟨b, hb, h⟩ := h
    exact factsExtends_trans (pushEdge_extends f (a, b)) (ih _ _ h)

theorem emitCfgEdges_extends (e : FactEmitter) (bb : BasicBlock) (f f2 : Facts)
    (h : e.emitCfgEdges bb f = .ok f2) : FactsExtends f f2 := by
  simp only [FactEmitter.emitCfgEdges] at h
  rw [exceptBind_ok] at h
  obtain ⟨f1, h1, h2⟩ := h
  exact factsExtends_trans (emitEdgeIdxList_extends e bb.name _ f f1 h1)
    (emitSuccEdges_extends e bb.name _ bb.successors f1 f2 h2)

theorem emitStatementFacts_extends (program : Program)
    (loans : Place → List (Origin × Location)) (node : Node)
    (s : SpannedStatement) (f f2 : Facts)
    (h : emitStatementFacts program loans node s f = .ok f2) : FactsExtends f f2 := by
  obtain ⟨text, st⟩ := s
  cases st with
  | expr ex =>
    simp only [emitStatementFacts] at h
    exact factsExtends_trans (pushNodeText_extends f (text, node))
      (emitExprFacts_extends program loans node ex _ f2 h)
  | assign place ex =>
    simp only [emitStatementFacts] at h
    rw [exceptBind_ok] at h
    obtain ⟨lt, hlt, h⟩ := h
    rw [exceptBind_ok] at h
    obtain ⟨os, hos, h⟩ := h
    rw [exceptBind_ok] at h
    obtain ⟨f3, he, hs⟩ := h
    have hstep : ∀ (F1 : Facts), FactsExtends F1
        (if lt.isRef then F1
         else (loans place).foldl (fun f ol => f.pushInvalidate (ol.1, node)) F1) := by
      intro F1
      by_cases hri : lt.isRef = true
      · simp only [hri, if_true]
        exact factsExtends_refl F1
      · simp only [hri, if_false]
        exact foldl_extends _ (fun f (ol : Origin × Location) => pushInvalidate_extends f (ol.1, node)) _ F1
    exact factsExtends_trans (pushNodeText_extends f (text, node))
      (factsExtends_trans (foldl_extends _ (fun f o => pushClear_extends f (o, node)) os _)
        (factsExtends_trans (hstep _)
          (factsExtends_trans (emitExprFacts_extends program loans node ex _ f3 he)
            (emitSubsetFacts_extends program node lt ex f3 f2 hs))))

theorem emitStatementsFrom_extends (e : FactEmitter) (block : Name) :
    ∀ (stmts : List SpannedStatement) (idx : Nat) (f f2 : Facts),
      e.emitStatementsFrom block idx stmts f = .ok f2 → FactsExtends f f2 := by
  intro stmts
  induction stmts with
  | nil =>
    intro idx f f2 h
    simp only [FactEmitter.emitStatementsFrom] at h
    injection h with h2
    rw [← h2]
    exact factsExtends_refl f
  | cons s rest ih =>
    intro idx f f2 h
    simp only [FactEmitter.emitStatementsFrom] at h
    rw [exceptBind_ok] at h
    obtain ⟨nd, hnd, h⟩ := h
    rw [exceptBind_ok] at h
    obtain ⟨f1, h1, h2⟩ := h
    exact factsExtends_trans (emitStatementFacts_extends e.program e.loans nd s f f1 h1)
      (ih (idx + 1) f1 f2 h2)

theorem emitBlockFacts_extends (e : FactEmitter) (bb : BasicBlock) (f f2 : Facts)
    (h : e.emitBlockFacts bb f = .ok f2) : FactsExtends f f2 := by
  simp only [FactEmitter.emitBlockFacts] at h
  rw [exceptBind_ok] at h
  obtain ⟨f1, h1, h2⟩ := h
  exact factsExtends_trans (emitCfgEdges_extends e bb f f1 h1)
    (emitStatementsFrom_extends e bb.name bb.statements 0 f1 f2 h2)

theorem emitBlocksFacts_extends (e : FactEmitter) :
    ∀ (bbs : List BasicBlock) (f f2 : Facts),
      e.emitBlocksFacts bbs f = .ok f2 → FactsExtends f f2 := by
  intro bbs
  induction bbs with
  | nil =>
    intro f f2 h
    simp only [FactEmitter.emitBlocksFacts] at h
    injection h with h2
    rw [← h2]
    exact factsExtends_refl f
  | cons bb rest ih =>
    intro f f2 h
    simp only [FactEmitter.emitBlocksFacts] at h
    rw [exceptBind_ok] at h
    obtain ⟨f1, h1, h2⟩ := h
    exact factsExtends_trans (emitBlockFacts_extends e bb f f1 h1) (ih f1 f2 h2)

/-- C9: the emission pass and every per-block, per-statement and
per-expression helper only append to the `Facts` accumulator: for each of
the six relations, the relation before a successful call is an unchanged
prefix of the relation after it. The emitter itself (program, loan index,
input text and flags) is immutable state in this embedding, mirroring the
shared borrow `&self` taken by every emission method. -/
theorem C9_append_only (e : FactEmitter) (f g : Facts) :
    (e.emitFacts f = .ok g → FactsExtends f g) ∧
    (∀ bb, e.emitBlockFacts bb f = .ok g → FactsExtends f g) ∧
    (∀ node s, emitStatementFacts e.program e.loans node s f = .ok g → FactsExtends f g) ∧
    (∀ node expr, emitExprFacts e.program e.loans node expr f = .ok g → FactsExtends f g) ∧
    (∀ node lhs_ty rhs_expr,
        emitSubsetFacts e.program node lhs_ty rhs_expr f = .ok g → FactsExtends f g) ∧
    (∀ bb, e.emitCfgEdges bb f = .ok g → FactsExtends f g) ∧
    (∀ node l r v, relateTys node l r v f = .ok g → FactsExtends f g) := by
  refine ⟨?_, ?_, ?_, ?_, ?_, ?_, ?_⟩
  · intro h
    exact emitBlocksFacts_extends e e.program.basic_blocks f g h
  · intro bb h
    exact emitBlockFacts_extends e bb f g h
  · intro node s h
    exact emitStatementFacts_extends e.program e.loans node s f g h
  · intro node expr h
    exact emitExprFacts_extends e.program e.loans node expr f g h
  · intro node lhs_ty rhs_expr h
    exact emitSubsetFacts_extends e.program node lhs_ty rhs_expr f g h
  · intro bb h
    exact emitCfgEdges_extends e bb f g h
  · intro node l r v h
    exact relateTys_extends node l r v f g h

/-- C9 witness: the append-only theorem applied to the full emission of
`progCfg` from the empty accumulator. -/
theorem C9_witness : FactsExtends Facts.empty (emittedFactsD progCfg false) :=
  (C9_append_only (FactEmitter.new progCfg false) Facts.empty
    (emittedFactsD progCfg false)).1 (by decide)

/-! ## C10: zip truncation in relate_tys -/

theorem relateParams_append_left (node : Node) :
    ∀ (ls rs extra : List Parameter) (v : Variance) (f : Facts),
      ls.length = rs.length →
      relateParams node (ls ++ extra) rs v f = relateParams node ls rs v f := by
  intro ls
  induction ls with
  | nil =>
    intro rs extra v f h
    have hrs : rs = [] := by
      cases rs with
      | nil => rfl
      | cons b rs2 => simp at h
    subst hrs
    cases extra with
    | nil => rfl
    | cons x xs => simp [relateParams]
  | cons a ls2 ih =>
    intro rs extra v f h
    cases rs with
    | nil => simp at h
    | cons b rs2 =>
      simp only [List.cons_append, relateParams]
      cases hp : relateParamPair node a b v f with
      | error msg => simp [Bind.bind, Except.bind]
      | ok f1 =>
        simp only [Bind.bind, Except.bind]
        exact ih rs2 extra v f1 (by simpa using h)

theorem relateParams_append_right (node : Node) :
    ∀ (ls rs extra : List Parameter) (v : Variance) (f : Facts),
      ls.length = rs.length →
      relateParams node ls (rs ++ extra) v f = relateParams node ls rs v f := by
  intro ls
  induction ls with
  | nil =>
    intro rs extra v f h
    have hrs : rs = [] := by
      cases rs with
      | nil => rfl
      | cons b rs2 => simp at h
    subst hrs
    simp [relateParams]
  | cons a ls2 ih =>
    intro rs extra v f h
    cases rs with
    | nil => simp at h
    | cons b rs2 =>
      simp only [List.cons_append, relateParams]
      cases hp : relateParamPair node a b v f with
      | error msg => simp [Bind.bind, Except.bind]
      | ok f1 =>
        simp only [Bind.bind, Except.bind]
        exact ih rs2 extra v f1 (by simpa using h)

/-- C10: relating two struct types pairs their parameter lists positionally
and the zip truncates at the shorter list: surplus parameters on either side
leave the result (facts and success alike) unchanged, and relating any pair
of types where either side is not a struct emits nothing and succeeds. -/
theorem C10_relate_tys_zip_truncation :
    (∀ (node : Node) (n1 n2 : Name) (ls rs : List Parameter) (v : Variance)
        (f : Facts),
        relateTys node (.struct n1 ls) (.struct n2 rs) v f =
          relateParams node ls rs v f) ∧
    (∀ (node : Node) (ls rs extra : List Parameter) (v : Variance) (f : Facts),
        ls.length = rs.length →
        relateParams node (ls ++ extra) rs v f = relateParams node ls rs v f) ∧
    (∀ (node : Node) (ls rs extra : List Parameter) (v : Variance) (f : Facts),
        ls.length = rs.length →
        relateParams node ls (rs ++ extra) v f = relateParams node ls rs v f) ∧
    (∀ (node : Node) (l r : Ty) (v : Variance) (f : Facts),
        ((∀ n ps, l ≠ .struct n ps) ∨ (∀ n ps, r ≠ .struct n ps)) →
        relateTys node l r v f = .ok f) := by
  refine ⟨?_, relateParams_append_left, relateParams_append_right, ?_⟩
  · intro node n1 n2 ls rs v f
    simp [relateTys]
  · intro node l r v f hne
    cases l <;> cases r <;> simp [relateTys]
    rcases hne with hne | hne <;> exact absurd rfl (hne _ _)

/-- C10 witness: a surplus parameter on the left list changes nothing. -/
theorem C10_witness :
    relateParams "n" ([Parameter.ty (.ref "o1" .i32)] ++ [Parameter.origin "oX"])
        [Parameter.ty (.ref "o2" .i32)] .covariant Facts.empty =
      relateParams "n" [Parameter.ty (.ref "o1" .i32)]
        [Parameter.ty (.ref "o2" .i32)] .covariant Facts.empty :=
  C10_relate_tys_zip_truncation.2.1 "n" [Parameter.ty (.ref "o1" .i32)]
    [Parameter.ty (.ref "o2" .i32)] [Parameter.origin "oX"] .covariant
    Facts.empty (by decide)

/-! ## C7: the origin-collection quirk -/

theorem collectOriginsList_no_ty (ps : List Parameter)
    (h : ∀ u : Ty, Parameter.ty u ∉ ps) :
    Parameter.collectOriginsList ps = ps.filterMap Parameter.originName? := by
  induction ps with
  | nil => rfl
  | cons p rest ih =>
    cases p with
    | origin o =>
      simp only [Parameter.collectOriginsList, List.filterMap_cons,
        Parameter.originName?]
      rw [ih (fun u hu => h u (List.mem_cons_of_mem _ hu))]
    | ty u => exact absurd (List.mem_cons_self _ _) (h u)

theorem collectOriginsList_until_ty (ps1 : List Parameter) (t : Ty)
    (ps2 : List Parameter) (h : ∀ u : Ty, Parameter.ty u ∉ ps1) :
    Parameter.collectOriginsList (ps1 ++ Parameter.ty t :: ps2) =
      ps1.filterMap Parameter.originName? ++ t.collectOrigins := by
  induction ps1 with
  | nil => simp [Parameter.collectOriginsList]
  | cons p rest ih =>
    cases p with
    | origin o =>
      simp only [List.cons_append, Parameter.collectOriginsList,
        List.filterMap_cons, Parameter.originName?, List.append_eq]
      rw [ih (fun u hu => h u (List.mem_cons_of_mem _ hu))]
    | ty u => exact absurd (List.mem_cons_self _ _) (h u)

/-- C7: `origins_of` collection visits a reference origin before its
referent, and a struct parameter list is visited left to right collecting
origin parameters, except that the visit returns as soon as the first type
parameter child has been visited recursively: parameters after the first
type parameter contribute no origins (the visit result does not mention
them), and a parameter list with no type parameter contributes exactly its
origin parameters; `origins_of_place` concatenates the collections of every
type visited along the place walk, in order. -/
theorem C7_origin_collection_quirk :
    (∀ (program : Program) (place : Place) (visited : List Ty) (ty : Ty),
        walkPlaceTys program place = .ok (visited, ty) →
        originsOfPlace program place = .ok ((visited.map Ty.collectOrigins).flatten)) ∧
    (∀ (o : Name) (t : Ty), (Ty.ref o t).collectOrigins = o :: t.collectOrigins) ∧
    (∀ (o : Name) (t : Ty), (Ty.refMut o t).collectOrigins = o :: t.collectOrigins) ∧
    (∀ (name : Name) (ps1 : List Parameter) (t : Ty) (ps2 : List Parameter),
        (∀ u : Ty, Parameter.ty u ∉ ps1) →
        Ty.collectOrigins (.struct name (ps1 ++ Parameter.ty t :: ps2)) =
          ps1.filterMap Parameter.originName? ++ t.collectOrigins) ∧
    (∀ (name : Name) (ps : List Parameter),
        (∀ u : Ty, Parameter.ty u ∉ ps) →
        Ty.collectOrigins (.struct name ps) =
          ps.filterMap Parameter.originName?) := by
  refine ⟨?_, ?_, ?_, ?_, ?_⟩
  · intro program place visited ty h
    simp [originsOfPlace, h, Except.map]
  · intro o t
    simp [Ty.collectOrigins]
  · intro o t
    simp [Ty.collectOrigins]
  · intro name ps1 t ps2 h
    simp only [Ty.collectOrigins]
    exact collectOriginsList_until_ty ps1 t ps2 h
  · intro name ps h
    simp only [Ty.collectOrigins]
    exact collectOriginsList_no_ty ps h

/-- C7 witness: the struct-parameter quirk applied to a concrete parameter
list: the origin parameter after the type parameter is dropped. -/
theorem C7_witness :
    Ty.collectOrigins (.struct "Pair"
        ([Parameter.origin "o_a0"] ++
          Parameter.ty (.ref "o_c" .i32) :: [Parameter.origin "o_b0"])) =
      [Parameter.origin "o_a0"].filterMap Parameter.originName? ++
        (Ty.ref "o_c" .i32).collectOrigins :=
  C7_origin_collection_quirk.2.2.2.1 "Pair" [Parameter.origin "o_a0"]
    (.ref "o_c" .i32) [Parameter.origin "o_b0"]
    (by intro u hu; simp at hu)

/-! ## C5: the unprocessed-origin assertion of the fallthrough branch -/

/-- Sequencing a unit computation before an ok result errors exactly when
the unit computation errors. -/
theorem bindUnit_error_iff (m : Except String Unit) (f : Facts) :
    (∃ msg, (m >>= fun _ => (.ok f : Except String Facts)) = .error msg) ↔
      ∃ msg, m = .error msg := by
  cases m <;> simp [Bind.bind, Except.bind]

/-- On the fallthrough arms of the variance table, `emit_subset_facts` is
the sanity assertion followed by returning the accumulator unchanged. -/
theorem emitSubsetFacts_fallthrough (program : Program) (node : Node)
    (lhs_ty : Ty) (rhs_expr : Expr) (facts : Facts)
    (hfall : subsetArmMatches lhs_ty rhs_expr = false) :
    emitSubsetFacts program node lhs_ty rhs_expr facts =
      (assertNoOriginsArePresent program lhs_ty rhs_expr >>= fun _ => .ok facts) := by
  cases rhs_expr with
  | number v => cases lhs_ty <;> rfl
  | call c args => cases lhs_ty <;> simp [subsetArmMatches] at hfall
  | access kind place =>
    cases kind with
    | borrow o =>
      cases lhs_ty with
      | ref o2 t2 => simp [subsetArmMatches] at hfall
      | i32 => rfl
      | unit => rfl
      | refMut o2 t2 => rfl
      | struct n ps => rfl
    | borrowMut o =>
      cases lhs_ty with
      | refMut o2 t2 => simp [subsetArmMatches] at hfall
      | i32 => rfl
      | unit => rfl
      | ref o2 t2 => rfl
      | struct n ps => rfl
    | copy =>
      cases lhs_ty with
      | ref o2 t2 => simp [subsetArmMatches] at hfall
      | refMut o2 t2 => simp [subsetArmMatches] at hfall
      | struct n ps => simp [subsetArmMatches] at hfall
      | i32 => rfl
      | unit => rfl
    | move =>
      cases lhs_ty with
      | ref o2 t2 => simp [subsetArmMatches] at hfall
      | refMut o2 t2 => simp [subsetArmMatches] at hfall
      | struct n ps => simp [subsetArmMatches] at hfall
      | i32 => rfl
      | unit => rfl

/-- The assertion on a copy or move whose place resolves: it errors exactly
when the resolved type carries origins (assuming the LHS check passed). -/
theorem assert_copy_move_iff (program : Program) (lhs_ty : Ty) (p : Place)
    (k : AccessKind) (hk : k = AccessKind.copy ∨ k = AccessKind.move)
    (t : Ty) (ht : tyOfPlace program p = .ok t) (hl : lhs_ty.hasOrigins = false) :
    (∃ msg, assertNoOriginsArePresent program lhs_ty (.access k p) = .error msg) ↔
      t.hasOrigins = true := by
  rcases hk with rfl | rfl <;>
  · constructor
    · rintro ⟨msg, hmsg⟩
      simp only [assertNoOriginsArePresent, hl, Bool.false_eq_true,
        if_false, ht, Bind.bind, Except.bind] at hmsg
      cases hto : t.hasOrigins with
      | true => rfl
      | false => simp [hto] at hmsg
    · intro hto
      exact ⟨"RHS ty has unprocessed origins",
        by simp [assertNoOriginsArePresent, hl, ht, hto,
          Bind.bind, Except.bind]⟩

/-- The assertion errors exactly when the LHS type has an origin, the RHS is
a borrow, or the RHS is a copy or move of a place whose type has an origin
(when that place resolves). -/
theorem assert_error_iff (program : Program) (lhs_ty : Ty) (rhs_expr : Expr)
    (hty : ∀ k p, rhs_expr = .access k p → ∃ t, tyOfPlace program p = .ok t) :
    (∃ msg, assertNoOriginsArePresent program lhs_ty rhs_expr = .error msg) ↔
      (lhs_ty.hasOrigins = true ∨
       (∃ o p, rhs_expr = .access (.borrow o) p ∨
          rhs_expr = .access (.borrowMut o) p) ∨
       (∃ k p t, rhs_expr = .access k p ∧
          (k = AccessKind.copy ∨ k = AccessKind.move) ∧
          tyOfPlace program p = .ok t ∧ t.hasOrigins = true)) := by
  by_cases hl : lhs_ty.hasOrigins = true
  · constructor
    · intro _
      exact Or.inl hl
    · intro _
      exact ⟨"LHS has unprocessed origins",
        by simp [assertNoOriginsArePresent, hl]⟩
  · have hl2 : lhs_ty.hasOrigins = false := by
      revert hl
      cases lhs_ty.hasOrigins <;> simp
    cases rhs_expr with
    | number v =>
      constructor
      · rintro ⟨msg, hmsg⟩
        simp [assertNoOriginsArePresent, hl2] at hmsg
      · rintro (h | ⟨o, p, hp | hp⟩ | ⟨k, p, t, hp, hrest⟩)
        · rw [hl2] at h
          cases h
        · cases hp
        · cases hp
        · cases hp
    | call c args =>
      constructor
      · rintro ⟨msg, hmsg⟩
        simp [assertNoOriginsArePresent, hl2] at hmsg
      · rintro (h | ⟨o, p, hp | hp⟩ | ⟨k, p, t, hp, hrest⟩)
        · rw [hl2] at h
          cases h
        · cases hp
        · cases hp
        · cases hp
    | access kind place =>
      cases kind with
      | borrow o =>
        constructor
        · intro _
          exact Or.inr (Or.inl ⟨o, place, Or.inl rfl⟩)
        · intro _
          exact ⟨"RHS has unprocessed origins",
            by simp [assertNoOriginsArePresent, hl2]⟩
      | borrowMut o =>
        constructor
        · intro _
          exact Or.inr (Or.inl ⟨o, place, Or.inr rfl⟩)
        · intro _
          exact ⟨"RHS has unprocessed origins",
            by simp [assertNoOriginsArePresent, hl2]⟩
      | copy =>
        obtain ⟨t, ht⟩ := hty .copy place rfl
        rw [assert_copy_move_iff program lhs_ty place .copy (Or.inl rfl) t ht hl2]
        constructor
        · intro hto
          exact Or.inr (Or.inr ⟨.copy, place, t, rfl, Or.inl rfl, ht, hto⟩)
        · rintro (h | ⟨o, p, hp | hp⟩ | ⟨k, p, t2, hp, hk2, ht2, hto2⟩)
          · rw [hl2] at h
            cases h
          · cases hp
          · cases hp
          · injection hp with hk3 hp3
            subst hk3
            subst hp3
            rw [ht] at ht2
            injection ht2 with ht2
            rw [ht2]
            exact hto2
      | move =>
        obtain ⟨t, ht⟩ := hty .move place rfl
        rw [assert_copy_move_iff program lhs_ty place .move (Or.inr rfl) t ht hl2]
        constructor
        · intro hto
          exact Or.inr (Or.inr ⟨.move, place, t, rfl, Or.inr rfl, ht, hto⟩)
        · rintro (h | ⟨o, p, hp | hp⟩ | ⟨k, p, t2, hp, hk2, ht2, hto2⟩)
          · rw [hl2] at h
            cases h
          · cases hp
          · cases hp
          · injection hp with hk3 hp3
            subst hk3
            subst hp3
            rw [ht] at ht2
            injection ht2 with ht2
            rw [ht2]
            exact hto2

/-- C5: on an LHS-type and RHS-expression pair matched by none of the
variance-table arms, subset emission panics exactly when the LHS type
carries an origin, or the RHS is a borrow, or the RHS is a copy or move of a
place whose resolved type carries an origin; it completes without panic only
when no such origin is present. -/
theorem C5_unprocessed_origin_assertion (program : Program) (node : Node)
    (lhs_ty : Ty) (rhs_expr : Expr) (facts : Facts)
    (hfall : subsetArmMatches lhs_ty rhs_expr = false)
    (hty : ∀ k p, rhs_expr = .access k p → ∃ t, tyOfPlace program p = .ok t) :
    (∃ msg, emitSubsetFacts program node lhs_ty rhs_expr facts = .error msg) ↔
      (lhs_ty.hasOrigins = true ∨
       (∃ o p, rhs_expr = .access (.borrow o) p ∨
          rhs_expr = .access (.borrowMut o) p) ∨
       (∃ k p t, rhs_expr = .access k p ∧
          (k = AccessKind.copy ∨ k = AccessKind.move) ∧
          tyOfPlace program p = .ok t ∧ t.hasOrigins = true)) := by
  rw [emitSubsetFacts_fallthrough program node lhs_ty rhs_expr facts hfall,
    bindUnit_error_iff]
  exact assert_error_iff program lhs_ty rhs_expr hty

/-- C5 witness: a fallthrough assignment of a number to a shared reference
panics because the LHS type carries an origin. -/
theorem C5_witness :
    ∃ msg, emitSubsetFacts progBorrow "n"
      (.ref "o" .i32) (.number 1) Facts.empty = .error msg :=
  (C5_unprocessed_origin_assertion progBorrow "n"
    (.ref "o" .i32) (.number 1) Facts.empty rfl
    (by intro k p hkp; cases hkp)).mpr (Or.inl rfl)

/-! ## C6: CFG edge completeness -/

theorem nodeAt_default (e : FactEmitter) (h : e.simple_node_names = false)
    (b : Name) (i : Nat) : e.nodeAt b i = .ok (defaultLabel b i) := by
  simp [FactEmitter.nodeAt, h]

theorem emitEdgeIdxList_default (e : FactEmitter)
    (h : e.simple_node_names = false) (b : Name) :
    ∀ (idxs : List Nat) (f : Facts),
      e.emitEdgeIdxList b idxs f = .ok { f with cfg_edge := (f.cfg_edge ++
        idxs.map (fun i => (defaultLabel b (i - 1), defaultLabel b i))) } := by
  intro idxs
  induction idxs with
  | nil =>
    intro f
    simp [FactEmitter.emitEdgeIdxList]
  | cons i rest ih =>
    intro f
    simp only [FactEmitter.emitEdgeIdxList, nodeAt_default e h, Bind.bind,
      Except.bind]
    rw [ih]
    simp [Facts.pushEdge, List.append_assoc]

theorem emitSuccEdges_default (e : FactEmitter)
    (h : e.simple_node_names = false) (b : Name) (n : Nat) :
    ∀ (succs : List Name) (f : Facts),
      e.emitSuccEdges b n succs f = .ok { f with cfg_edge := (f.cfg_edge ++
        succs.map (fun s => (defaultLabel b (n - 1), defaultLabel s 0))) } := by
  intro succs
  induction succs with
  | nil =>
    intro f
    simp [FactEmitter.emitSuccEdges]
  | cons s rest ih =>
    intro f
    simp only [FactEmitter.emitSuccEdges, nodeAt_default e h, Bind.bind,
      Except.bind]
    rw [ih]
    simp [Facts.pushEdge, List.append_assoc]

/-- C6: in default naming mode, CFG emission for a block with `n` statements
and `k` successors appends exactly the `n - 1` intra-block edges
`(name[i-1], name[i])` for `i` in `1..n`, in order, followed by one edge
`(name[max(n,1)-1], s[0])` per successor in declaration order (truncated
subtraction on naturals realises `max(n-1,0)` and `max(n,1)-1`); in
particular an empty block contributes the single node `name[0]` bridging
into each successor, and the appended edge count is `max(n-1,0) + k`. -/
theorem C6_cfg_edge_completeness (e : FactEmitter) (bb : BasicBlock)
    (facts : Facts) (h : e.simple_node_names = false) :
    e.emitCfgEdges bb facts = .ok { facts with cfg_edge := facts.cfg_edge ++
      ((List.range' 1 (bb.statements.length - 1)).map
          (fun i => (defaultLabel bb.name (i - 1), defaultLabel bb.name i)) ++
        bb.successors.map
          (fun s => (defaultLabel bb.name (bb.statements.length - 1),
                     defaultLabel s 0))) } ∧
    ((List.range' 1 (bb.statements.length - 1)).map
        (fun i => (defaultLabel bb.name (i - 1), defaultLabel bb.name i)) ++
      bb.successors.map
        (fun s => (defaultLabel bb.name (bb.statements.length - 1),
                   defaultLabel s 0))).length =
      (bb.statements.length - 1) + bb.successors.length := by
  constructor
  · simp only [FactEmitter.emitCfgEdges, Bind.bind, Except.bind,
      emitEdgeIdxList_default e h]
    rw [emitSuccEdges_default e h]
    simp [List.append_assoc]
  · simp

/-- C6 witness: the edge characterization applied to the two-statement,
two-successor block of `progCfg`. -/
theorem C6_witness :
    (FactEmitter.new progCfg false).emitCfgEdges
        ⟨"bb0", [⟨"x = 1", .assign ⟨"x", []⟩ (.number 1)⟩,
                 ⟨"x = 2", .assign ⟨"x", []⟩ (.number 2)⟩], ["bb1", "bb2"]⟩
        Facts.empty =
      .ok { Facts.empty with cfg_edge :=
        [("bb0[0]", "bb0[1]"), ("bb0[1]", "bb1[0]"), ("bb0[1]", "bb2[0]")] } := by
  have hc := (C6_cfg_edge_completeness (FactEmitter.new progCfg false)
    ⟨"bb0", [⟨"x = 1", .assign ⟨"x", []⟩ (.number 1)⟩,
             ⟨"x = 2", .assign ⟨"x", []⟩ (.number 2)⟩], ["bb1", "bb2"]⟩
    Facts.empty rfl).1
  rw [hc]
  decide

/-! ## C8: mode round trip. First, decimal representations are injective. -/

theorem toDigitsCore_append (n : Nat) :
    ∀ (f : Nat) (l : List Char), n < f →
      Nat.toDigitsCore 10 f n l = Nat.toDigitsCore 10 (n + 1) n [] ++ l := by
  induction n using Nat.strong_induction_on with
  | _ n ih =>
    intro f l hf
    cases f with
    | zero => omega
    | succ f2 =>
      simp only [Nat.toDigitsCore]
      by_cases h0 : n / 10 = 0
      · simp [h0]
      · rw [if_neg h0, if_neg h0]
        have hn0 : n ≠ 0 := by
          intro h
          rw [h] at h0
          simp at h0
        have hlt : n / 10 < n := Nat.div_lt_self (Nat.pos_of_ne_zero hn0) (by norm_num)
        rw [ih (n / 10) hlt f2 _ (by omega), ih (n / 10) hlt n _ (by omega)]
        simp

theorem toDigitsCore_ne_nil (n : Nat) :
    Nat.toDigitsCore 10 (n + 1) n [] ≠ [] := by
  simp only [Nat.toDigitsCore]
  by_cases h0 : n / 10 = 0
  · simp [h0]
  · rw [if_neg h0]
    have hn0 : n ≠ 0 := by
      intro h
      rw [h] at h0
      simp at h0
    have hlt : n / 10 < n := Nat.div_lt_self (Nat.pos_of_ne_zero hn0) (by norm_num)
    rw [toDigitsCore_append (n / 10) n _ hlt]
    simp

theorem digitChar_inj10 :
    ∀ d1, d1 < 10 → ∀ d2, d2 < 10 →
      Nat.digitChar d1 = Nat.digitChar d2 → d1 = d2 := by decide

theorem toDigitsAux_inj (n1 : Nat) :
    ∀ n2, Nat.toDigitsCore 10 (n1 + 1) n1 [] =
      Nat.toDigitsCore 10 (n2 + 1) n2 [] → n1 = n2 := by
  induction n1 using Nat.strong_induction_on with
  | _ n1 ih =>
    intro n2 h
    simp only [Nat.toDigitsCore] at h
    by_cases h1 : n1 / 10 = 0 <;> by_cases h2 : n2 / 10 = 0
    · rw [if_pos h1, if_pos h2] at h
      injection h with hd _
      have := digitChar_inj10 (n1 % 10) (by omega) (n2 % 10) (by omega) hd
      omega
    · rw [if_pos h1, if_neg h2] at h
      have hn2 : n2 ≠ 0 := by
        intro hx
        rw [hx] at h2
        simp at h2
      rw [toDigitsCore_append (n2 / 10) n2 _
        (Nat.div_lt_self (Nat.pos_of_ne_zero hn2) (by norm_num))] at h
      have hne := toDigitsCore_ne_nil (n2 / 10)
      cases hcore : Nat.toDigitsCore 10 (n2 / 10 + 1) (n2 / 10) [] with
      | nil => exact absurd hcore hne
      | cons c cs =>
        rw [hcore] at h
        simp at h
    · rw [if_neg h1, if_pos h2] at h
      have hn1 : n1 ≠ 0 := by
        intro hx
        rw [hx] at h1
        simp at h1
      rw [toDigitsCore_append (n1 / 10) n1 _
        (Nat.div_lt_self (Nat.pos_of_ne_zero hn1) (by norm_num))] at h
      have hne := toDigitsCore_ne_nil (n1 / 10)
      cases hcore : Nat.toDigitsCore 10 (n1 / 10 + 1) (n1 / 10) [] with
      | nil => exact absurd hcore hne
      | cons c cs =>
        rw [hcore] at h
        simp at h
    · rw [if_neg h1, if_neg h2] at h
      have hn1 : n1 ≠ 0 := by
        intro hx
        rw [hx] at h1
        simp at h1
      have hn2 : n2 ≠ 0 := by
        intro hx
        rw [hx] at h2
        simp at h2
      have hlt1 : n1 / 10 < n1 := Nat.div_lt_self (Nat.pos_of_ne_zero hn1) (by norm_num)
      have hlt2 : n2 / 10 < n2 := Nat.div_lt_self (Nat.pos_of_ne_zero hn2) (by norm_num)
      rw [toDigitsCore_append (n1 / 10) n1 _ hlt1,
        toDigitsCore_append (n2 / 10) n2 _ hlt2] at h
      obtain ⟨hc, hd⟩ := List.append_inj' h rfl
      have hdiv := ih (n1 / 10) hlt1 (n2 / 10) hc
      injection hd with hd _
      have hmod := digitChar_inj10 (n1 % 10) (by omega) (n2 % 10) (by omega) hd
      omega

theorem nat_repr_inj (n1 n2 : Nat) (h : Nat.repr n1 = Nat.repr n2) : n1 = n2 := by
  apply toDigitsAux_inj
  simpa [Nat.repr, Nat.toDigits, List.asString] using congrArg String.data h

/-- Splitting two equal lists at the first occurrence of a character absent
from both prefixes. -/
theorem split_at_first_char (c : Char) :
    ∀ (l1 l2 t1 t2 : List Char), c ∉ l1 → c ∉ l2 →
      l1 ++ c :: t1 = l2 ++ c :: t2 → l1 = l2 ∧ t1 = t2 := by
  intro l1
  induction l1 with
  | nil =>
    intro l2 t1 t2 h1 h2 he
    cases l2 with
    | nil =>
      simp at he
      exact ⟨rfl, he⟩
    | cons x l2b =>
      simp at he
      obtain ⟨hcx, _⟩ := he
      exact absurd (hcx ▸ List.mem_cons_self x l2b) h2
  | cons y l1b ih =>
    intro l2 t1 t2 h1 h2 he
    cases l2 with
    | nil =>
      simp at he
      obtain ⟨hcy, _⟩ := he
      exact absurd (hcy.symm ▸ List.mem_cons_self y l1b) h1
    | cons x l2b =>
      simp at he
      obtain ⟨hyx, hrest⟩ := he
      obtain ⟨hl, ht⟩ := ih l2b t1 t2 (fun hm => h1 (List.mem_cons_of_mem _ hm))
        (fun hm => h2 (List.mem_cons_of_mem _ hm)) hrest
      exact ⟨by rw [hyx, hl], ht⟩

theorem defaultLabel_data (b : Name) (i : Nat) :
    (defaultLabel b i).data =
      b.data ++ Char.ofNat 91 :: ((Nat.repr i).data ++ [Char.ofNat 93]) := by
  have h1 : ("[" : String).data = [Char.ofNat 91] := by decide
  have h2 : ("]" : String).data = [Char.ofNat 93] := by decide
  have h3 : toString i = Nat.repr i := rfl
  simp [defaultLabel, String.data_append, h1, h2, h3]

theorem defaultLabel_inj (b1 b2 : Name) (i1 i2 : Nat)
    (hb1 : Char.ofNat 91 ∉ b1.data) (hb2 : Char.ofNat 91 ∉ b2.data)
    (h : defaultLabel b1 i1 = defaultLabel b2 i2) : b1 = b2 ∧ i1 = i2 := by
  have hd := congrArg String.data h
  rw [defaultLabel_data, defaultLabel_data] at hd
  obtain ⟨hb, ht⟩ := split_at_first_char (Char.ofNat 91) _ _ _ _ hb1 hb2 hd
  refine ⟨String.ext hb, ?_⟩
  obtain ⟨hr, _⟩ := List.append_inj' ht rfl
  exact nat_repr_inj i1 i2 (String.ext hr)

theorem foldl_slot_shift :
    ∀ (l : List BasicBlock) (a : Nat),
      l.foldl (fun acc bb => acc + max bb.statements.length 1) a =
        a + l.foldl (fun acc bb => acc + max bb.statements.length 1) 0 := by
  intro l
  induction l with
  | nil => intro a; simp
  | cons x xs ih =>
    intro a
    simp only [List.foldl_cons]
    rw [ih (a + max x.statements.length 1), ih (0 + max x.statements.length 1)]
    omega

theorem blockSlotStart_cons (bb : BasicBlock) (bbs : List BasicBlock) (b : Name) :
    blockSlotStart (bb :: bbs) b =
      if b = bb.name then 0 else slotCount bb + blockSlotStart bbs b := by
  by_cases hb : b = bb.name
  · simp [blockSlotStart, List.takeWhile_cons, hb]
  · rw [if_neg hb]
    simp only [blockSlotStart, List.takeWhile_cons]
    rw [if_pos (by simp [hb])]
    simp only [List.foldl_cons, Nat.zero_add]
    exact foldl_slot_shift _ _

theorem totalSlots_cons (bb : BasicBlock) (bbs : List BasicBlock) :
    totalSlots (bb :: bbs) = slotCount bb + totalSlots bbs := by
  simp [totalSlots]

theorem usedPairs_mem (bbs : List BasicBlock) (b : Name) (i : Nat) :
    (b, i) ∈ usedPairs bbs ↔
      ∃ bb, bb ∈ bbs ∧ bb.name = b ∧ i < slotCount bb := by
  simp only [usedPairs, List.mem_flatMap, List.mem_map, List.mem_range]
  constructor
  · rintro ⟨bb, hbb, j, hj, he⟩
    injection he with he1 he2
    exact ⟨bb, hbb, he1, he2 ▸ hj⟩
  · rintro ⟨bb, hbb, hname, hi⟩
    exact ⟨bb, hbb, i, hi, by rw [hname]⟩

theorem slot_code_lt (bbs : List BasicBlock)
    (hu : (bbs.map (fun bb => bb.name)).Nodup) (b : Name) (i : Nat)
    (hm : (b, i) ∈ usedPairs bbs) :
    blockSlotStart bbs b + i < totalSlots bbs := by
  induction bbs with
  | nil => simp [usedPairs] at hm
  | cons bb rest ih =>
    rw [usedPairs_mem] at hm
    obtain ⟨bb2, hbb2, hname, hi⟩ := hm
    rw [blockSlotStart_cons, totalSlots_cons]
    rcases List.mem_cons.mp hbb2 with hb2 | hb2
    · subst hb2
      rw [if_pos hname.symm]
      have : (0 : Nat) ≤ totalSlots rest := Nat.zero_le _
      omega
    · have hbne : b ≠ bb.name := by
        intro hx
        have : bb.name ∈ rest.map (fun bb => bb.name) :=
          List.mem_map.mpr ⟨bb2, hb2, by rw [hname, hx]⟩
        exact (List.nodup_cons.mp hu).1 this
      rw [if_neg hbne]
      have hrec := ih (List.nodup_cons.mp hu).2
        ((usedPairs_mem rest b i).mpr ⟨bb2, hb2, hname, hi⟩)
      omega

theorem slot_code_inj (bbs : List BasicBlock)
    (hu : (bbs.map (fun bb => bb.name)).Nodup) (b1 : Name) (i1 : Nat)
    (b2 : Name) (i2 : Nat)
    (h1 : (b1, i1) ∈ usedPairs bbs) (h2 : (b2, i2) ∈ usedPairs bbs)
    (heq : blockSlotStart bbs b1 + i1 = blockSlotStart bbs b2 + i2) :
    b1 = b2 ∧ i1 = i2 := by
  induction bbs with
  | nil => simp [usedPairs] at h1
  | cons bb rest ih =>
    rw [usedPairs_mem] at h1 h2
    obtain ⟨c1, hc1, hn1, hi1⟩ := h1
    obtain ⟨c2, hc2, hn2, hi2⟩ := h2
    rw [blockSlotStart_cons, blockSlotStart_cons] at heq
    have hnodup := List.nodup_cons.mp hu
    rcases List.mem_cons.mp hc1 with hm1 | hm1 <;>
      rcases List.mem_cons.mp hc2 with hm2 | hm2
    · rw [if_pos (by rw [← hn1, hm1]), if_pos (by rw [← hn2, hm2])] at heq
      refine ⟨?_, by omega⟩
      rw [← hn1, ← hn2, hm1, hm2]
    · have hbne2 : b2 ≠ bb.name := by
        intro hx
        exact hnodup.1 (List.mem_map.mpr ⟨c2, hm2, by rw [hn2, hx]⟩)
      rw [if_pos (by rw [← hn1, hm1]), if_neg hbne2] at heq
      have hi1b : i1 < slotCount bb := by rw [← hm1]; exact hi1
      exfalso
      omega
    · have hbne1 : b1 ≠ bb.name := by
        intro hx
        exact hnodup.1 (List.mem_map.mpr ⟨c1, hm1, by rw [hn1, hx]⟩)
      rw [if_neg hbne1, if_pos (by rw [← hn2, hm2])] at heq
      have hi2b : i2 < slotCount bb := by rw [← hm2]; exact hi2
      exfalso
      omega
    · have hbne1 : b1 ≠ bb.name := by
        intro hx
        exact hnodup.1 (List.mem_map.mpr ⟨c1, hm1, by rw [hn1, hx]⟩)
      have hbne2 : b2 ≠ bb.name := by
        intro hx
        exact hnodup.1 (List.mem_map.mpr ⟨c2, hm2, by rw [hn2, hx]⟩)
      rw [if_neg hbne1, if_neg hbne2] at heq
      exact ih hnodup.2 ((usedPairs_mem rest b1 i1).mpr ⟨c1, hm1, hn1, hi1⟩)
        ((usedPairs_mem rest b2 i2).mpr ⟨c2, hm2, hn2, hi2⟩) (by omega)

theorem char_toNat_ofNat (n : Nat) (h : n.isValidChar) :
    (Char.ofNat n).toNat = n := by
  rw [Char.ofNat, dif_pos h]
  rfl

theorem simpleLabel_inj (bbs : List BasicBlock)
    (hu : (bbs.map (fun bb => bb.name)).Nodup)
    (hbound : 97 + totalSlots bbs ≤ 0xd800) (b1 : Name) (i1 : Nat)
    (b2 : Name) (i2 : Nat)
    (h1 : (b1, i1) ∈ usedPairs bbs) (h2 : (b2, i2) ∈ usedPairs bbs)
    (heq : simpleLabel bbs b1 i1 = simpleLabel bbs b2 i2) :
    b1 = b2 ∧ i1 = i2 := by
  have hv1 : (97 + blockSlotStart bbs b1 + i1).isValidChar :=
    Or.inl (by have := slot_code_lt bbs hu b1 i1 h1; omega)
  have hv2 : (97 + blockSlotStart bbs b2 + i2).isValidChar :=
    Or.inl (by have := slot_code_lt bbs hu b2 i2 h2; omega)
  have hd := congrArg String.data heq
  simp only [simpleLabel] at hd
  injection hd with hc _
  have hcode := congrArg Char.toNat hc
  rw [char_toNat_ofNat _ hv1, char_toNat_ofNat _ hv2] at hcode
  exact slot_code_inj bbs hu b1 i1 b2 i2 h1 h2 (by omega)

theorem nodeAt_simple (e : FactEmitter) (hs : e.simple_node_names = true)
    (b : Name) (i : Nat)
    (hv : 97 + blockSlotStart e.program.basic_blocks b + i < 0xd800) :
    e.nodeAt b i = .ok (simpleLabel e.program.basic_blocks b i) := by
  simp only [FactEmitter.nodeAt, hs, if_true]
  rw [if_pos (Or.inl hv)]
  rfl

theorem nodeRenaming_default (bbs : List BasicBlock)
    (_hu : (bbs.map (fun bb => bb.name)).Nodup)
    (hbrk : ∀ bb ∈ bbs, Char.ofNat 91 ∉ bb.name.data) (b : Name) (i : Nat)
    (hm : (b, i) ∈ usedPairs bbs) :
    nodeRenaming bbs (defaultLabel b i) = simpleLabel bbs b i := by
  unfold nodeRenaming
  have hsome : ((usedPairs bbs).find?
      (fun bi => defaultLabel bi.1 bi.2 == defaultLabel b i)).isSome := by
    rw [List.find?_isSome]
    exact ⟨(b, i), hm, by simp⟩
  obtain ⟨x, hx⟩ := Option.isSome_iff_exists.mp hsome
  rw [hx]
  have hpx : defaultLabel x.1 x.2 = defaultLabel b i := by
    have := List.find?_some hx
    simpa using this
  have hxmem : x ∈ usedPairs bbs := List.mem_of_find?_eq_some hx
  obtain ⟨bbx, hbbx, hnx, _⟩ := (usedPairs_mem bbs x.1 x.2).mp
    (by rw [show ((x.1, x.2) : Name × Nat) = x from rfl]; exact hxmem)
  obtain ⟨bbb, hbbb, hnb, _⟩ := (usedPairs_mem bbs b i).mp hm
  obtain ⟨hb, hi⟩ := defaultLabel_inj x.1 b x.2 i
    (hnx ▸ hbrk bbx hbbx) (hnb ▸ hbrk bbb hbbb) hpx
  show simpleLabel bbs x.1 x.2 = simpleLabel bbs b i
  rw [hb, hi]

theorem mapFactsNodes_pushAccess (ren : Node → Node) (f : Facts) (o : Origin)
    (n : Node) : mapFactsNodes ren (f.pushAccess (o, n)) =
      (mapFactsNodes ren f).pushAccess (o, ren n) := by
  simp [mapFactsNodes, Facts.pushAccess]

theorem mapFactsNodes_pushEdge (ren : Node → Node) (f : Facts) (a b : Node) :
    mapFactsNodes ren (f.pushEdge (a, b)) =
      (mapFactsNodes ren f).pushEdge (ren a, ren b) := by
  simp [mapFactsNodes, Facts.pushEdge]

theorem mapFactsNodes_pushClear (ren : Node → Node) (f : Facts) (o : Origin)
    (n : Node) : mapFactsNodes ren (f.pushClear (o, n)) =
      (mapFactsNodes ren f).pushClear (o, ren n) := by
  simp [mapFactsNodes, Facts.pushClear]

theorem mapFactsNodes_pushSubset (ren : Node → Node) (f : Facts)
    (a b : Origin) (n : Node) : mapFactsNodes ren (f.pushSubset (a, b, n)) =
      (mapFactsNodes ren f).pushSubset (a, b, ren n) := by
  simp [mapFactsNodes, Facts.pushSubset]

theorem mapFactsNodes_pushInvalidate (ren : Node → Node) (f : Facts)
    (o : Origin) (n : Node) : mapFactsNodes ren (f.pushInvalidate (o, n)) =
      (mapFactsNodes ren f).pushInvalidate (o, ren n) := by
  simp [mapFactsNodes, Facts.pushInvalidate]

theorem mapFactsNodes_pushNodeText (ren : Node → Node) (f : Facts)
    (t : String) (n : Node) : mapFactsNodes ren (f.pushNodeText (t, n)) =
      (mapFactsNodes ren f).pushNodeText (t, ren n) := by
  simp [mapFactsNodes, Facts.pushNodeText]

theorem mapFactsNodes_foldl_pushAccess (ren : Node → Node) (node : Node)
    (os : List Origin) : ∀ (f : Facts),
      os.foldl (fun f o => f.pushAccess (o, ren node)) (mapFactsNodes ren f) =
        mapFactsNodes ren (os.foldl (fun f o => f.pushAccess (o, node)) f) := by
  induction os with
  | nil => intro f; rfl
  | cons o rest ih =>
    intro f
    simp only [List.foldl_cons]
    rw [← mapFactsNodes_pushAccess, ih]

theorem mapFactsNodes_foldl_pushClear (ren : Node → Node) (node : Node)
    (os : List Origin) : ∀ (f : Facts),
      os.foldl (fun f o => f.pushClear (o, ren node)) (mapFactsNodes ren f) =
        mapFactsNodes ren (os.foldl (fun f o => f.pushClear (o, node)) f) := by
  induction os with
  | nil => intro f; rfl
  | cons o rest ih =>
    intro f
    simp only [List.foldl_cons]
    rw [← mapFactsNodes_pushClear, ih]

theorem mapFactsNodes_foldl_pushInvalidate (ren : Node → Node) (node : Node)
    (ls : List (Origin × Location)) : ∀ (f : Facts),
      ls.foldl (fun f ol => f.pushInvalidate (ol.1, ren node)) (mapFactsNodes ren f) =
        mapFactsNodes ren (ls.foldl (fun f ol => f.pushInvalidate (ol.1, node)) f) := by
  induction ls with
  | nil => intro f; rfl
  | cons ol rest ih =>
    intro f
    simp only [List.foldl_cons]
    rw [← mapFactsNodes_pushInvalidate, ih]

theorem bindUnit_map (m : Except String Unit) (ren : Node → Node) (f : Facts) :
    (m >>= fun _ => (.ok (mapFactsNodes ren f) : Except String Facts)) =
      (m >>= fun _ => (.ok f : Except String Facts)).map (mapFactsNodes ren) := by
  cases m <;> simp [Bind.bind, Except.bind, Except.map]

mutual

theorem relateTys_map (ren : Node → Node) (node : Node) (l r : Ty)
    (v : Variance) (f : Facts) :
    relateTys (ren node) l r v (mapFactsNodes ren f) =
      (relateTys node l r v f).map (mapFactsNodes ren) := by
  cases l with
  | struct n1 ps1 =>
    cases r with
    | struct n2 ps2 =>
      simpa [relateTys] using relateParams_map ren node ps1 ps2 v f
    | i32 => simp [relateTys, Except.map]
    | unit => simp [relateTys, Except.map]
    | ref o t => simp [relateTys, Except.map]
    | refMut o t => simp [relateTys, Except.map]
  | i32 => simp [relateTys, Except.map]
  | unit => simp [relateTys, Except.map]
  | ref o t => simp [relateTys, Except.map]
  | refMut o t => simp [relateTys, Except.map]
termination_by structural l

theorem relateParamPair_map (ren : Node → Node) (node : Node)
    (la ra : Parameter) (v : Variance) (f : Facts) :
    relateParamPair (ren node) la ra v (mapFactsNodes ren f) =
      (relateParamPair node la ra v f).map (mapFactsNodes ren) := by
  cases la with
  | origin o =>
    cases ra <;> simp [relateParamPair, Except.map]
  | ty lt =>
    cases ra with
    | origin o2 => cases lt <;> simp [relateParamPair, Except.map]
    | ty rt =>
      cases lt with
      | ref tO lT =>
        cases rt with
        | ref sO rT =>
          simp only [relateParamPair]
          by_cases hc1 : (v = Variance.covariant ∨ v = Variance.invariant) <;>
            by_cases hc2 : (v = Variance.contravariant ∨ v = Variance.invariant)
          · simp only [if_pos hc1, if_pos hc2]
            simp only [← mapFactsNodes_pushSubset]
            exact relateTys_map ren node lT rT v _
          · simp only [if_pos hc1, if_neg hc2]
            simp only [← mapFactsNodes_pushSubset]
            exact relateTys_map ren node lT rT v _
          · simp only [if_neg hc1, if_pos hc2]
            simp only [← mapFactsNodes_pushSubset]
            exact relateTys_map ren node lT rT v _
          · simp only [if_neg hc1, if_neg hc2]
            exact relateTys_map ren node lT rT v f
        | i32 => simpa [relateParamPair] using relateTys_map ren node (.ref tO lT) .i32 v f
        | unit => simpa [relateParamPair] using relateTys_map ren node (.ref tO lT) .unit v f
        | refMut o2 t2 =>
          simpa [relateParamPair] using relateTys_map ren node (.ref tO lT) (.refMut o2 t2) v f
        | struct n2 ps2 =>
          simpa [relateParamPair] using relateTys_map ren node (.ref tO lT) (.struct n2 ps2) v f
      | refMut tO lT =>
        cases rt with
        | refMut sO rT =>
          simp only [relateParamPair]
          by_cases hc1 : (v = Variance.covariant ∨ v = Variance.invariant) <;>
            by_cases hc2 : (v = Variance.contravariant ∨ v = Variance.invariant)
          · simp only [if_pos hc1, if_pos hc2]
            simp only [← mapFactsNodes_pushSubset]
            exact relateTys_map ren node lT rT .invariant _
          · simp only [if_pos hc1, if_neg hc2]
            simp only [← mapFactsNodes_pushSubset]
            exact relateTys_map ren node lT rT .invariant _
          · simp only [if_neg hc1, if_pos hc2]
            simp only [← mapFactsNodes_pushSubset]
            exact relateTys_map ren node lT rT .invariant _
          · simp only [if_neg hc1, if_neg hc2]
            exact relateTys_map ren node lT rT .invariant f
        | i32 => simpa [relateParamPair] using relateTys_map ren node (.refMut tO lT) .i32 v f
        | unit => simpa [relateParamPair] using relateTys_map ren node (.refMut tO lT) .unit v f
        | ref o2 t2 =>
          simpa [relateParamPair] using relateTys_map ren node (.refMut tO lT) (.ref o2 t2) v f
        | struct n2 ps2 =>
          simpa [relateParamPair] using relateTys_map ren node (.refMut tO lT) (.struct n2 ps2) v f
      | i32 =>
        cases rt <;> simpa [relateParamPair] using relateTys_map ren node .i32 _ v f
      | unit =>
        cases rt <;> simpa [relateParamPair] using relateTys_map ren node .unit _ v f
      | struct n1 ps1 =>
        cases rt <;>
          simpa [relateParamPair] using relateTys_map ren node (.struct n1 ps1) _ v f
termination_by structural la

theorem relateParams_map (ren : Node → Node) (node : Node)
    (ls rs : List Parameter) (v : Variance) (f : Facts) :
    relateParams (ren node) ls rs v (mapFactsNodes ren f) =
      (relateParams node ls rs v f).map (mapFactsNodes ren) := by
  cases ls with
  | nil => cases rs <;> simp [relateParams, Except.map]
  | cons la ls2 =>
    cases rs with
    | nil => simp [relateParams, Except.map]
    | cons ra rs2 =>
      simp only [relateParams]
      rw [relateParamPair_map]
      cases hp : relateParamPair node la ra v f with
      | error msg => simp [Except.map, Bind.bind, Except.bind]
      | ok f1 =>
        simp only [Except.map, Bind.bind, Except.bind]
        exact relateParams_map ren node ls2 rs2 v f1
termination_by structural ls

end

mutual

theorem emitExprFacts_map (program : Program)
    (loans : Place → List (Origin × Location)) (ren : Node → Node)
    (node : Node) (expr : Expr) (f : Facts) :
    emitExprFacts program loans (ren node) expr (mapFactsNodes ren f) =
      (emitExprFacts program loans node expr f).map (mapFactsNodes ren) := by
  cases expr with
  | number v => simp [emitExprFacts, Except.map]
  | call c args =>
    simp only [emitExprFacts]
    exact emitExprListFacts_map program loans ren node args f
  | access kind place =>
    cases kind with
    | borrow o => simp [emitExprFacts, Except.map, mapFactsNodes_pushClear]
    | borrowMut o =>
      simp only [emitExprFacts]
      cases hos : originsOfPlace program place with
      | error msg => simp [Bind.bind, Except.bind, Except.map]
      | ok os =>
        simp only [Bind.bind, Except.bind]
        rw [← mapFactsNodes_pushClear, mapFactsNodes_foldl_pushAccess,
          mapFactsNodes_foldl_pushInvalidate]
        simp [Except.map]
    | copy =>
      simp only [emitExprFacts]
      cases hos : originsOfPlace program place with
      | error msg => simp [Bind.bind, Except.bind, Except.map]
      | ok os =>
        simp only [Bind.bind, Except.bind]
        rw [mapFactsNodes_foldl_pushAccess]
        simp [Except.map]
    | move =>
      simp only [emitExprFacts]
      cases hos : originsOfPlace program place with
      | error msg => simp [Bind.bind, Except.bind, Except.map]
      | ok os =>
        simp only [Bind.bind, Except.bind]
        rw [mapFactsNodes_foldl_pushAccess]
        simp [Except.map]
termination_by structural expr

theorem emitExprListFacts_map (program : Program)
    (loans : Place → List (Origin × Location)) (ren : Node → Node)
    (node : Node) (exprs : List Expr) (f : Facts) :
    emitExprListFacts program loans (ren node) exprs (mapFactsNodes ren f) =
      (emitExprListFacts program loans node exprs f).map (mapFactsNodes ren) := by
  cases exprs with
  | nil => simp [emitExprListFacts, Except.map]
  | cons a rest =>
    simp only [emitExprListFacts]
    rw [emitExprFacts_map]
    cases ha : emitExprFacts program loans node a f with
    | error msg => simp [Bind.bind, Except.bind, Except.map]
    | ok f1 =>
      simp only [Bind.bind, Except.bind, Except.map]
      exact emitExprListFacts_map program loans ren node rest f1
termination_by structural exprs

end

theorem emitSubsetFacts_map_fallthrough (program : Program) (node : Node)
    (ren : Node → Node) (lhs_ty : Ty) (rhs_expr : Expr) (f : Facts)
    (hfall : subsetArmMatches lhs_ty rhs_expr = false) :
    emitSubsetFacts program (ren node) lhs_ty rhs_expr (mapFactsNodes ren f) =
      (emitSubsetFacts program node lhs_ty rhs_expr f).map (mapFactsNodes ren) := by
  rw [emitSubsetFacts_fallthrough program (ren node) lhs_ty rhs_expr
      (mapFactsNodes ren f) hfall,
    emitSubsetFacts_fallthrough program node lhs_ty rhs_expr f hfall]
  exact bindUnit_map _ ren f

theorem emitSubsetFacts_map (program : Program) (node : Node)
    (ren : Node → Node) (lhs_ty : Ty) (rhs_expr : Expr) (f : Facts) :
    emitSubsetFacts program (ren node) lhs_ty rhs_expr (mapFactsNodes ren f) =
      (emitSubsetFacts program node lhs_ty rhs_expr f).map (mapFactsNodes ren) := by
  cases rhs_expr with
  | number v =>
    cases lhs_ty <;> exact emitSubsetFacts_map_fallthrough program node ren _ _ f rfl
  | call c args => cases lhs_ty <;> simp [emitSubsetFacts, Except.map]
  | access kind place =>
    cases kind with
    | borrow sO =>
      cases lhs_ty with
      | ref tO lT =>
        simp only [emitSubsetFacts]
        cases ht : tyOfPlace program place with
        | error msg => simp [Bind.bind, Except.bind, Except.map]
        | ok rt =>
          simp only [Bind.bind, Except.bind]
          rw [← mapFactsNodes_pushSubset]
          exact relateTys_map ren node lT rt .covariant _
      | i32 => exact emitSubsetFacts_map_fallthrough program node ren _ _ f rfl
      | unit => exact emitSubsetFacts_map_fallthrough program node ren _ _ f rfl
      | refMut o t => exact emitSubsetFacts_map_fallthrough program node ren _ _ f rfl
      | struct n ps => exact emitSubsetFacts_map_fallthrough program node ren _ _ f rfl
    | borrowMut sO =>
      cases lhs_ty with
      | refMut tO lT =>
        simp only [emitSubsetFacts]
        cases ht : tyOfPlace program place with
        | error msg => simp [Bind.bind, Except.bind, Except.map]
        | ok rt =>
          simp only [Bind.bind, Except.bind]
          rw [← mapFactsNodes_pushSubset]
          exact relateTys_map ren node lT rt .invariant _
      | i32 => exact emitSubsetFacts_map_fallthrough program node ren _ _ f rfl
      | unit => exact emitSubsetFacts_map_fallthrough program node ren _ _ f rfl
      | ref o t => exact emitSubsetFacts_map_fallthrough program node ren _ _ f rfl
      | struct n ps => exact emitSubsetFacts_map_fallthrough program node ren _ _ f rfl
    | copy =>
      cases lhs_ty with
      | ref tO lT =>
        simp only [emitSubsetFacts]
        cases ht : tyOfPlace program place with
        | error msg => simp [Bind.bind, Except.bind, Except.map]
        | ok rt =>
          simp only [Bind.bind, Except.bind]
          cases rt with
          | ref sO rI =>
            show relateTys (ren node) lT rI Variance.covariant
                ((mapFactsNodes ren f).pushSubset (sO, tO, ren node)) =
              Except.map (mapFactsNodes ren)
                (relateTys node lT rI Variance.covariant
                  (f.pushSubset (sO, tO, node)))
            rw [← mapFactsNodes_pushSubset]
            exact relateTys_map ren node lT rI .covariant _
          | i32 => simp [Except.map]
          | unit => simp [Except.map]
          | refMut o t => simp [Except.map]
          | struct n ps => simp [Except.map]
      | refMut tO lT =>
        simp only [emitSubsetFacts]
        cases ht : tyOfPlace program place with
        | error msg => simp [Bind.bind, Except.bind, Except.map]
        | ok rt =>
          simp only [Bind.bind, Except.bind]
          cases rt with
          | refMut sO rI =>
            show relateTys (ren node) lT rI Variance.invariant
                ((mapFactsNodes ren f).pushSubset (sO, tO, ren node)) =
              Except.map (mapFactsNodes ren)
                (relateTys node lT rI Variance.invariant
                  (f.pushSubset (sO, tO, node)))
            rw [← mapFactsNodes_pushSubset]
            exact relateTys_map ren node lT rI .invariant _
          | i32 => simp [Except.map]
          | unit => simp [Except.map]
          | ref o t => simp [Except.map]
          | struct n ps => simp [Except.map]
      | struct n ps =>
        simp only [emitSubsetFacts]
        cases ht : tyOfPlace program place with
        | error msg => simp [Bind.bind, Except.bind, Except.map]
        | ok rt =>
          simp only [Bind.bind, Except.bind]
          exact relateTys_map ren node (.struct n ps) rt .covariant f
      | i32 => exact emitSubsetFacts_map_fallthrough program node ren _ _ f rfl
      | unit => exact emitSubsetFacts_map_fallthrough program node ren _ _ f rfl
    | move =>
      cases lhs_ty with
      | ref tO lT =>
        simp only [emitSubsetFacts]
        cases ht : tyOfPlace program place with
        | error msg => simp [Bind.bind, Except.bind, Except.map]
        | ok rt =>
          simp only [Bind.bind, Except.bind]
          cases rt with
          | ref sO rI =>
            show relateTys (ren node) lT rI Variance.covariant
                ((mapFactsNodes ren f).pushSubset (sO, tO, ren node)) =
              Except.map (mapFactsNodes ren)
                (relateTys node lT rI Variance.covariant
                  (f.pushSubset (sO, tO, node)))
            rw [← mapFactsNodes_pushSubset]
            exact relateTys_map ren node lT rI .covariant _
          | i32 => simp [Except.map]
          | unit => simp [Except.map]
          | refMut o t => simp [Except.map]
          | struct n ps => simp [Except.map]
      | refMut tO lT =>
        simp only [emitSubsetFacts]
        cases ht : tyOfPlace program place with
        | error msg => simp [Bind.bind, Except.bind, Except.map]
        | ok rt =>
          simp only [Bind.bind, Except.bind]
          cases rt with
          | refMut sO rI =>
            show relateTys (ren node) lT rI Variance.invariant
                ((mapFactsNodes ren f).pushSubset (sO, tO, ren node)) =
              Except.map (mapFactsNodes ren)
                (relateTys node lT rI Variance.invariant
                  (f.pushSubset (sO, tO, node)))
            rw [← mapFactsNodes_pushSubset]
            exact relateTys_map ren node lT rI .invariant _
          | i32 => simp [Except.map]
          | unit => simp [Except.map]
          | ref o t => simp [Except.map]
          | struct n ps => simp [Except.map]
      | struct n ps =>
        simp only [emitSubsetFacts]
        cases ht : tyOfPlace program place with
        | error msg => simp [Bind.bind, Except.bind, Except.map]
        | ok rt =>
          simp only [Bind.bind, Except.bind]
          exact relateTys_map ren node (.struct n ps) rt .covariant f
      | i32 => exact emitSubsetFacts_map_fallthrough program node ren _ _ f rfl
      | unit => exact emitSubsetFacts_map_fallthrough program node ren _ _ f rfl

theorem emitStatementFacts_map (program : Program)
    (loans : Place → List (Origin × Location)) (ren : Node → Node)
    (node : Node) (s : SpannedStatement) (f : Facts) :
    emitStatementFacts program loans (ren node) s (mapFactsNodes ren f) =
      (emitStatementFacts program loans node s f).map (mapFactsNodes ren) := by
  obtain ⟨text, st⟩ := s
  cases st with
  | expr ex =>
    simp only [emitStatementFacts]
    rw [← mapFactsNodes_pushNodeText]
    exact emitExprFacts_map program loans ren node ex _
  | assign place ex =>
    simp only [emitStatementFacts]
    cases hlt : tyOfPlace program place with
    | error msg => simp [Bind.bind, Except.bind, Except.map]
    | ok lt =>
      simp only [Bind.bind, Except.bind]
      cases hos : originsOfPlace program place with
      | error msg => simp [Except.map]
      | ok os =>
        show (emitExprFacts program loans (ren node) ex
            (if lt.isRef = true then
              List.foldl (fun f o => f.pushClear (o, ren node))
                ((mapFactsNodes ren f).pushNodeText (text, ren node)) os
            else
              List.foldl (fun f ol => f.pushInvalidate (ol.1, ren node))
                (List.foldl (fun f o => f.pushClear (o, ren node))
                  ((mapFactsNodes ren f).pushNodeText (text, ren node)) os)
                (loans place)) >>=
            fun v => emitSubsetFacts program (ren node) lt ex v) =
          Except.map (mapFactsNodes ren)
            ((emitExprFacts program loans node ex
              (if lt.isRef = true then
                List.foldl (fun f o => f.pushClear (o, node))
                  (f.pushNodeText (text, node)) os
              else
                List.foldl (fun f ol => f.pushInvalidate (ol.1, node))
                  (List.foldl (fun f o => f.pushClear (o, node))
                    (f.pushNodeText (text, node)) os)
                  (loans place)) >>=
              fun v => emitSubsetFacts program node lt ex v))
        rw [← mapFactsNodes_pushNodeText, mapFactsNodes_foldl_pushClear]
        by_cases hri : lt.isRef = true
        · simp only [if_pos hri]
          rw [emitExprFacts_map]
          cases he : emitExprFacts program loans node ex
              (List.foldl (fun f o => f.pushClear (o, node))
                (f.pushNodeText (text, node)) os) with
          | error msg => simp [Except.map, Bind.bind, Except.bind]
          | ok f3 =>
            simp only [Except.map, Bind.bind, Except.bind]
            exact emitSubsetFacts_map program node ren lt ex f3
        · simp only [if_neg hri]
          rw [mapFactsNodes_foldl_pushInvalidate, emitExprFacts_map]
          cases he : emitExprFacts program loans node ex
              (List.foldl (fun f ol => f.pushInvalidate (ol.1, node))
                (List.foldl (fun f o => f.pushClear (o, node))
                  (f.pushNodeText (text, node)) os)
                (loans place)) with
          | error msg => simp [Except.map, Bind.bind, Except.bind]
          | ok f3 =>
            simp only [Except.map, Bind.bind, Except.bind]
            exact emitSubsetFacts_map program node ren lt ex f3

theorem mapFactsNodes_empty (ren : Node → Node) :
    mapFactsNodes ren Facts.empty = Facts.empty := rfl

theorem emitEdgeIdxList_sim (p : Program)
    (L : Place → List (Origin × Location)) (ren : Node → Node)
    (hre : ∀ b i, (b, i) ∈ usedPairs p.basic_blocks →
      FactEmitter.nodeAt ⟨p, L, true⟩ b i = .ok (ren (defaultLabel b i)))
    (block : Name) (idxs : List Nat)
    (hidx : ∀ j ∈ idxs, (block, j - 1) ∈ usedPairs p.basic_blocks ∧
      (block, j) ∈ usedPairs p.basic_blocks) :
    ∀ f : Facts,
      FactEmitter.emitEdgeIdxList ⟨p, L, true⟩ block idxs (mapFactsNodes ren f) =
        (FactEmitter.emitEdgeIdxList ⟨p, L, false⟩ block idxs f).map
          (mapFactsNodes ren) := by
  induction idxs with
  | nil => intro f; rfl
  | cons j rest ih =>
    intro f
    simp only [FactEmitter.emitEdgeIdxList]
    rw [hre block (j - 1) ((hidx j (by simp)).1), hre block j ((hidx j (by simp)).2),
      nodeAt_default ⟨p, L, false⟩ rfl block (j - 1),
      nodeAt_default ⟨p, L, false⟩ rfl block j]
    simp only [Bind.bind, Except.bind]
    rw [← mapFactsNodes_pushEdge]
    exact ih (fun k hk => hidx k (List.mem_cons_of_mem _ hk)) _

theorem emitSuccEdges_sim (p : Program)
    (L : Place → List (Origin × Location)) (ren : Node → Node)
    (hre : ∀ b i, (b, i) ∈ usedPairs p.basic_blocks →
      FactEmitter.nodeAt ⟨p, L, true⟩ b i = .ok (ren (defaultLabel b i)))
    (block : Name) (statement_count : Nat)
    (hblk : (block, statement_count - 1) ∈ usedPairs p.basic_blocks)
    (succs : List Name)
    (hsu : ∀ s ∈ succs, (s, 0) ∈ usedPairs p.basic_blocks) :
    ∀ f : Facts,
      FactEmitter.emitSuccEdges ⟨p, L, true⟩ block statement_count succs
          (mapFactsNodes ren f) =
        (FactEmitter.emitSuccEdges ⟨p, L, false⟩ block statement_count succs f).map
          (mapFactsNodes ren) := by
  induction succs with
  | nil => intro f; rfl
  | cons s rest ih =>
    intro f
    simp only [FactEmitter.emitSuccEdges]
    rw [hre block (statement_count - 1) hblk, hre s 0 (hsu s (by simp)),
      nodeAt_default ⟨p, L, false⟩ rfl block (statement_count - 1),
      nodeAt_default ⟨p, L, false⟩ rfl s 0]
    simp only [Bind.bind, Except.bind]
    rw [← mapFactsNodes_pushEdge]
    exact ih (fun t ht => hsu t (List.mem_cons_of_mem _ ht)) _

theorem emitCfgEdges_sim (p : Program)
    (L : Place → List (Origin × Location)) (ren : Node → Node)
    (hre : ∀ b i, (b, i) ∈ usedPairs p.basic_blocks →
      FactEmitter.nodeAt ⟨p, L, true⟩ b i = .ok (ren (defaultLabel b i)))
    (bb : BasicBlock) (hbb : bb ∈ p.basic_blocks)
    (hsucc : ∀ s ∈ bb.successors, (s, 0) ∈ usedPairs p.basic_blocks)
    (f : Facts) :
    FactEmitter.emitCfgEdges ⟨p, L, true⟩ bb (mapFactsNodes ren f) =
      (FactEmitter.emitCfgEdges ⟨p, L, false⟩ bb f).map (mapFactsNodes ren) := by
  have hslot : ∀ j, j < slotCount bb → (bb.name, j) ∈ usedPairs p.basic_blocks :=
    fun j hj => (usedPairs_mem p.basic_blocks bb.name j).mpr ⟨bb, hbb, rfl, hj⟩
  have hlen : bb.statements.length - 1 < slotCount bb := by
    simp only [slotCount]
    omega
  simp only [FactEmitter.emitCfgEdges]
  rw [emitEdgeIdxList_sim p L ren hre bb.name
    (List.range' 1 (bb.statements.length - 1)) (fun j hj => by
      rw [List.mem_range'_1] at hj
      exact ⟨hslot (j - 1) (by simp only [slotCount]; omega),
        hslot j (by simp only [slotCount]; omega)⟩) f]
  cases ha : FactEmitter.emitEdgeIdxList ⟨p, L, false⟩ bb.name
      (List.range' 1 (bb.statements.length - 1)) f with
  | error msg => simp [Bind.bind, Except.bind, Except.map]
  | ok f1 =>
    simp only [Bind.bind, Except.bind, Except.map]
    exact emitSuccEdges_sim p L ren hre bb.name bb.statements.length
      (hslot _ hlen) bb.successors hsucc f1

theorem emitStatementsFrom_sim (p : Program)
    (L : Place → List (Origin × Location)) (ren : Node → Node)
    (hre : ∀ b i, (b, i) ∈ usedPairs p.basic_blocks →
      FactEmitter.nodeAt ⟨p, L, true⟩ b i = .ok (ren (defaultLabel b i)))
    (block : Name) (stmts : List SpannedStatement) :
    ∀ (idx : Nat) (f : Facts),
      (∀ k, k < stmts.length → (block, idx + k) ∈ usedPairs p.basic_blocks) →
      FactEmitter.emitStatementsFrom ⟨p, L, true⟩ block idx stmts
          (mapFactsNodes ren f) =
        (FactEmitter.emitStatementsFrom ⟨p, L, false⟩ block idx stmts f).map
          (mapFactsNodes ren) := by
  induction stmts with
  | nil => intro idx f hst; rfl
  | cons s rest ih =>
    intro idx f hst
    have hm0 : (block, idx) ∈ usedPairs p.basic_blocks := by
      have := hst 0 (by simp)
      simpa using this
    simp only [FactEmitter.emitStatementsFrom]
    rw [hre block idx hm0, nodeAt_default ⟨p, L, false⟩ rfl block idx]
    simp only [Bind.bind, Except.bind]
    rw [emitStatementFacts_map p L ren (defaultLabel block idx) s f]
    cases hsf : emitStatementFacts p L (defaultLabel block idx) s f with
    | error msg => simp [Except.map]
    | ok f1 =>
      simp only [Except.map]
      exact ih (idx + 1) f1 (fun k hk => by
        have h2 := hst (k + 1) (by simpa using Nat.succ_lt_succ hk)
        rw [show idx + 1 + k = idx + (k + 1) by omega]
        exact h2)

theorem emitBlockFacts_sim (p : Program)
    (L : Place → List (Origin × Location)) (ren : Node → Node)
    (hre : ∀ b i, (b, i) ∈ usedPairs p.basic_blocks →
      FactEmitter.nodeAt ⟨p, L, true⟩ b i = .ok (ren (defaultLabel b i)))
    (bb : BasicBlock) (hbb : bb ∈ p.basic_blocks)
    (hsucc : ∀ s ∈ bb.successors, (s, 0) ∈ usedPairs p.basic_blocks)
    (f : Facts) :
    FactEmitter.emitBlockFacts ⟨p, L, true⟩ bb (mapFactsNodes ren f) =
      (FactEmitter.emitBlockFacts ⟨p, L, false⟩ bb f).map (mapFactsNodes ren) := by
  simp only [FactEmitter.emitBlockFacts]
  rw [emitCfgEdges_sim p L ren hre bb hbb hsucc f]
  cases hc : FactEmitter.emitCfgEdges ⟨p, L, false⟩ bb f with
  | error msg => simp [Bind.bind, Except.bind, Except.map]
  | ok f1 =>
    simp only [Bind.bind, Except.bind, Except.map]
    exact emitStatementsFrom_sim p L ren hre bb.name bb.statements 0 f1
      (fun k hk => by
        rw [Nat.zero_add]
        exact (usedPairs_mem p.basic_blocks bb.name k).mpr
          ⟨bb, hbb, rfl, by simp only [slotCount]; omega⟩)

theorem emitBlocksFacts_sim (p : Program)
    (L : Place → List (Origin × Location)) (ren : Node → Node)
    (hre : ∀ b i, (b, i) ∈ usedPairs p.basic_blocks →
      FactEmitter.nodeAt ⟨p, L, true⟩ b i = .ok (ren (defaultLabel b i)))
    (bbs2 : List BasicBlock) (hsub : ∀ bb ∈ bbs2, bb ∈ p.basic_blocks)
    (hsucc : ∀ bb ∈ bbs2, ∀ s ∈ bb.successors,
      (s, 0) ∈ usedPairs p.basic_blocks) :
    ∀ f : Facts,
      FactEmitter.emitBlocksFacts ⟨p, L, true⟩ bbs2 (mapFactsNodes ren f) =
        (FactEmitter.emitBlocksFacts ⟨p, L, false⟩ bbs2 f).map
          (mapFactsNodes ren) := by
  induction bbs2 with
  | nil => intro f; rfl
  | cons bb rest ih =>
    intro f
    simp only [FactEmitter.emitBlocksFacts]
    rw [emitBlockFacts_sim p L ren hre bb (hsub bb (by simp))
      (hsucc bb (by simp)) f]
    cases hb : FactEmitter.emitBlockFacts ⟨p, L, false⟩ bb f with
    | error msg => simp [Bind.bind, Except.bind, Except.map]
    | ok f1 =>
      simp only [Bind.bind, Except.bind, Except.map]
      exact ih (fun c hc => hsub c (List.mem_cons_of_mem _ hc))
        (fun c hc => hsucc c (List.mem_cons_of_mem _ hc)) f1

/-- C8: on a program whose block names are distinct, bracket-free and whose
slot count stays below the surrogate range, running the emitter with
`simple_node_names` set yields exactly the facts of the default mode with
every default node label `block[idx]` renamed to its single-letter simple
label, and this renaming is injective on the labels the run can mint. -/
theorem C8_mode_round_trip (p : Program)
    (hu : (p.basic_blocks.map (fun bb => bb.name)).Nodup)
    (hsucc : ∀ bb ∈ p.basic_blocks, ∀ s ∈ bb.successors,
      ∃ bb2, bb2 ∈ p.basic_blocks ∧ bb2.name = s)
    (hbrk : ∀ bb ∈ p.basic_blocks, Char.ofNat 91 ∉ bb.name.data)
    (hbound : 97 + totalSlots p.basic_blocks ≤ 0xd800) :
    (FactEmitter.new p true).emitFacts Facts.empty =
      ((FactEmitter.new p false).emitFacts Facts.empty).map
        (mapFactsNodes (nodeRenaming p.basic_blocks)) ∧
    (∀ b1 i1 b2 i2, (b1, i1) ∈ usedPairs p.basic_blocks →
      (b2, i2) ∈ usedPairs p.basic_blocks →
      nodeRenaming p.basic_blocks (defaultLabel b1 i1) =
        nodeRenaming p.basic_blocks (defaultLabel b2 i2) →
      defaultLabel b1 i1 = defaultLabel b2 i2) := by
  have hre : ∀ b i, (b, i) ∈ usedPairs p.basic_blocks →
      FactEmitter.nodeAt ⟨p, loansOf p, true⟩ b i =
        .ok (nodeRenaming p.basic_blocks (defaultLabel b i)) := by
    intro b i hm
    rw [nodeRenaming_default p.basic_blocks hu hbrk b i hm]
    exact nodeAt_simple ⟨p, loansOf p, true⟩ rfl b i
      (by
        show 97 + blockSlotStart p.basic_blocks b + i < 0xd800
        have := slot_code_lt p.basic_blocks hu b i hm
        omega)
  constructor
  · simp only [FactEmitter.new, FactEmitter.emitFacts]
    exact emitBlocksFacts_sim p (loansOf p) (nodeRenaming p.basic_blocks) hre
      p.basic_blocks (fun bb h => h)
      (fun bb hbb s hs => by
        obtain ⟨bb2, hbb2, hname⟩ := hsucc bb hbb s hs
        exact (usedPairs_mem p.basic_blocks s 0).mpr
          ⟨bb2, hbb2, hname, by simp only [slotCount]; omega⟩)
      Facts.empty
  · intro b1 i1 b2 i2 h1 h2 heq
    rw [nodeRenaming_default p.basic_blocks hu hbrk b1 i1 h1,
      nodeRenaming_default p.basic_blocks hu hbrk b2 i2 h2] at heq
    obtain ⟨hb, hi⟩ :=
      simpleLabel_inj p.basic_blocks hu hbound b1 i1 b2 i2 h1 h2 heq
    rw [hb, hi]

/-- C8 witness: the mode round-trip instantiated on the two-block program
`progCfg`, every side condition discharged by evaluation. -/
theorem C8_witness :
    (progCfg.basic_blocks.map (fun bb => bb.name)).Nodup ∧
      (FactEmitter.new progCfg true).emitFacts Facts.empty =
        ((FactEmitter.new progCfg false).emitFacts Facts.empty).map
          (mapFactsNodes (nodeRenaming progCfg.basic_blocks)) :=
  ⟨by decide,
    (C8_mode_round_trip progCfg (by decide)
      (by decide)
      (by decide)
      (by decide)).1⟩

end PoloniusNext
